import Mathlib

/-!
# Book similarity checker: a verification development

A shallow embedding of `src/bookSimilarity.cpp` and theorems about it.

Modelling conventions.

* A `std::string` holding a word is a list of characters (`CString`).  The
  program never calls `setlocale`, so `isalnum` and `toupper` are those of the
  default "C" locale: only the ASCII letters and digits are alphanumeric and
  only `a`..`z` are changed by `toupper`.
* A `std::map` is its sequence of entries in iteration order, i.e. strictly
  ascending by key (`StdMap`).  `std::string` keys compare lexicographically.
* A `double` frequency is an exact rational number; `int` counters are natural
  numbers (the source's behaviour is undefined once a counter passes 2^31 - 1).
  Where the rounding of `double` arithmetic decides a property, the same
  statements of the source are also given with IEEE binary64 rounding
  (`Binary64`, `getTopWordsDouble`, `calculateSimilarityDouble`).
* `std::sort` is any function meeting the contract of `std::sort`: the result
  is a permutation of the input in which no element is ordered, by the
  comparator, before one of its predecessors (`StdSort`).  The order among
  equivalent elements is left open, as in the C++ standard.
* A file is given by the result of opening it: `none` when it cannot be opened,
  otherwise the sequence of tokens that `file >> word` extracts.
-/

namespace BookSimilarity

/-! ## Strings and the C character functions -/

/-- A word held in a `std::string`. -/
abbrev CString := List Char

/-- The function `isalnum` of `<cctype>` in the "C" locale. -/
def isalnum (ch : Char) : Bool :=
  (48 ≤ ch.toNat && ch.toNat ≤ 57) || (65 ≤ ch.toNat && ch.toNat ≤ 90) ||
    (97 ≤ ch.toNat && ch.toNat ≤ 122)

/-- The function `toupper` of `<cctype>` in the "C" locale. -/
def toupper (ch : Char) : Char :=
  if 97 ≤ ch.toNat ∧ ch.toNat ≤ 122 then Char.ofNat (ch.toNat - 32) else ch

/-! ## Constants -/

/-- Number of words kept in a profile. -/
def MAX_FREQUENT_WORDS : Nat := 100

/-- Number of files the ranking expects. -/
def TOTAL_TEXT_BOOKS : Nat := 64

/-- Array of words to be excluded from the similarity calculation. -/
def excludedWords : List CString :=
  ["a".toList, "and".toList, "an".toList, "of".toList, "in".toList, "the".toList]

/-! ## Tokenizer / normalizer -/

/-- The loop of `isExcluded` over the remaining entries of the array. -/
def isExcludedLoop (word : CString) : List CString → Bool
  | [] => false
  | excluded :: rest => if word = excluded then true else isExcludedLoop word rest

/-- Checks whether a word is in the list `excludedWords`. -/
def isExcluded (word : CString) : Bool :=
  isExcludedLoop word excludedWords

/-- Normalizes a word: the alphanumeric characters are appended, uppercased,
to an initially empty string, in one pass over the word. -/
def normalizeWord (word : CString) : CString :=
  word.foldl (fun normalized ch => if isalnum ch then normalized ++ [toupper ch] else normalized) []

/-- The normalized word as the specification words it: the ASCII letters and
digits of the word in their original order, each letter uppercased, every other
character deleted. -/
def normalizeWordSpec (word : CString) : CString :=
  (word.filter (fun ch => ch.isAlpha || ch.isDigit)).map Char.toUpper

/-! ## The ordered map `std::map` -/

section Map

variable {K : Type} [LinearOrder K] {V : Type}

/-- Search of the entries of a map for a key (`std::map::find`, seen on the
entry sequence): the value of the first entry with that key, if any. -/
def lookupEntries (k : K) : List (K × V) → Option V
  | [] => none
  | e :: rest => if e.1 = k then some e.2 else lookupEntries k rest

/-- The statement `m[k] = f (m[k])` on the entry sequence of a map:
`operator[]` inserts the key with the value-initialised `dflt` at its place in
key order when it is absent, and the referenced value is then replaced. -/
def updateEntries (k : K) (f : V → V) (dflt : V) : List (K × V) → List (K × V)
  | [] => [(k, f dflt)]
  | e :: rest =>
    if k < e.1 then (k, f dflt) :: e :: rest
    else if e.1 = k then (e.1, f e.2) :: rest
    else e :: updateEntries k f dflt rest

/-- A `std::map<K, V>`: its entries in iteration order, strictly ascending by key. -/
structure StdMap (K : Type) [LinearOrder K] (V : Type) where
  /-- The entries, in iteration order. -/
  entries : List (K × V)
  /-- Keys are strictly ascending along the iteration order. -/
  sorted : entries.Pairwise (fun a b => a.1 < b.1)

theorem fst_mem_updateEntries (k : K) (f : V → V) (d : V) (l : List (K × V)) (e : K × V)
    (h : e ∈ updateEntries k f d l) : e.1 = k ∨ ∃ e' ∈ l, e'.1 = e.1 := by
  induction l with
  | nil =>
    simp only [updateEntries, List.mem_singleton] at h
    left; rw [h]
  | cons a rest ih =>
    simp only [updateEntries] at h
    split_ifs at h with h1 h2
    · rcases List.mem_cons.1 h with h | h
      · left; rw [h]
      · right; exact ⟨e, h, rfl⟩
    · rcases List.mem_cons.1 h with h | h
      · left; rw [h]; exact h2
      · right; exact ⟨e, List.mem_cons_of_mem _ h, rfl⟩
    · rcases List.mem_cons.1 h with h | h
      · right; exact ⟨a, List.mem_cons_self _ _, by rw [h]⟩
      · rcases ih h with h | ⟨e', he', h⟩
        · left; exact h
        · right; exact ⟨e', List.mem_cons_of_mem _ he', h⟩

theorem updateEntries_sorted (k : K) (f : V → V) (d : V) (l : List (K × V))
    (h : l.Pairwise (fun a b => a.1 < b.1)) :
    (updateEntries k f d l).Pairwise (fun a b => a.1 < b.1) := by
  induction l with
  | nil => simp [updateEntries]
  | cons a rest ih =>
    have hh := List.pairwise_cons.1 h
    simp only [updateEntries]
    split_ifs with h1 h2
    · refine List.pairwise_cons.2 ⟨?_, h⟩
      intro b hb
      rcases List.mem_cons.1 hb with hb | hb
      · rw [hb]; exact h1
      · exact lt_trans h1 (hh.1 b hb)
    · exact List.pairwise_cons.2 ⟨hh.1, hh.2⟩
    · refine List.pairwise_cons.2 ⟨?_, ih hh.2⟩
      intro b hb
      rcases fst_mem_updateEntries k f d rest b hb with hb | ⟨e', he', hb⟩
      · rw [hb]
        exact lt_of_le_of_ne (not_lt.1 h1) h2
      · rw [← hb]; exact hh.1 e' he'

namespace StdMap

/-- The empty map. -/
def empty : StdMap K V := ⟨[], List.Pairwise.nil⟩

/-- Member `size()`. -/
def size (m : StdMap K V) : Nat := m.entries.length

/-- The keys in iteration order. -/
def keys (m : StdMap K V) : List K := m.entries.map Prod.fst

/-- Member `find(k)`: the mapped value when the key is present (the iterator
is not `end()`), `none` otherwise. -/
def find (m : StdMap K V) (k : K) : Option V := lookupEntries k m.entries

/-- The statement `m[k] = f (m[k])`, with `dflt` the value-initialised `V`. -/
def update (m : StdMap K V) (k : K) (f : V → V) (dflt : V) : StdMap K V :=
  ⟨updateEntries k f dflt m.entries, updateEntries_sorted k f dflt m.entries m.sorted⟩

/-- The value stored at a key, `0` for an absent key. -/
def valueAt [Zero V] (m : StdMap K V) (k : K) : V := (m.find k).getD 0

end StdMap

end Map

/-! ## The contract of `std::sort` -/

/-- An implementation of `std::sort` for the comparator `comp`: the result is a
permutation of the input, and no element is ordered by `comp` before an element
that precedes it.  Nothing is fixed about the order of equivalent elements. -/
structure StdSort (α : Type) (comp : α → α → Prop) where
  /-- The sorting function. -/
  run : List α → List α
  /-- The result rearranges the input. -/
  perm : ∀ l, (run l).Perm l
  /-- The result is ordered with respect to the comparator. -/
  sorted : ∀ l, (run l).Pairwise (fun a b => ¬ comp b a)

/-- Insertion sort meets the contract of `std::sort` for every comparator whose
complement is total and transitive (a strict weak ordering). -/
def insertionStdSort {α : Type} (comp : α → α → Prop) [DecidableRel comp]
    (htotal : ∀ a b, ¬ comp b a ∨ ¬ comp a b)
    (htrans : ∀ a b c, ¬ comp b a → ¬ comp c b → ¬ comp c a) : StdSort α comp where
  run := List.insertionSort (fun a b => ¬ comp b a)
  perm := List.perm_insertionSort _
  sorted := fun l =>
    haveI : IsTotal α (fun a b => ¬ comp b a) := ⟨htotal⟩
    haveI : IsTrans α (fun a b => ¬ comp b a) := ⟨htrans⟩
    List.sorted_insertionSort (fun a b => ¬ comp b a) l

/-! ## Frequency profiler -/

/-- A frequency profile, `map<string, double>`. -/
abbrev Profile := StdMap CString ℚ

/-- One iteration of the reading loop of `getTopWords` on the state
`(wordCounts, totalWords)`. -/
def countStep (st : StdMap CString Nat × Nat) (word : CString) : StdMap CString Nat × Nat :=
  let normalizedWord := normalizeWord word
  if normalizedWord ≠ [] ∧ isExcluded normalizedWord = false then
    (st.1.update normalizedWord (fun n => n + 1) 0, st.2 + 1)
  else st

/-- The reading loop of `getTopWords`: the final `(wordCounts, totalWords)`. -/
def countWords (tokens : List CString) : StdMap CString Nat × Nat :=
  tokens.foldl countStep (StdMap.empty, 0)

/-- The vector `freqList` before it is sorted: one entry per counted word, in
key order, with the frequency `count / totalWords`. -/
def freqList (tokens : List CString) : List (CString × ℚ) :=
  (countWords tokens).1.entries.map
    (fun pair => (pair.1, (pair.2 : ℚ) / ((countWords tokens).2 : ℚ)))

/-- The comparator passed to `std::sort` in `getTopWords`. -/
def freqGreater (a b : CString × ℚ) : Prop := a.2 > b.2

instance : DecidableRel freqGreater := fun a b => inferInstanceAs (Decidable (a.2 > b.2))

/-- Insertion sort as the `std::sort` of `getTopWords`; it leaves equally
frequent words in key order. -/
def freqSort : StdSort (CString × ℚ) freqGreater :=
  insertionStdSort freqGreater
    (fun a b => by unfold freqGreater; rcases le_total a.2 b.2 with h | h
                   · exact Or.inr (not_lt.2 h)
                   · exact Or.inl (not_lt.2 h))
    (fun a b c h1 h2 => by
      unfold freqGreater at *
      exact not_lt.2 (le_trans (not_lt.1 h2) (not_lt.1 h1)))

/-- The statement `if (freqList.size() > MAX_FREQUENT_WORDS) freqList.resize(MAX_FREQUENT_WORDS)`. -/
def truncateFreqList (l : List (CString × ℚ)) : List (CString × ℚ) :=
  if l.length > MAX_FREQUENT_WORDS then l.take MAX_FREQUENT_WORDS else l

/-- The vector `freqList` after sorting and truncation. -/
def topFreqList (S : StdSort (CString × ℚ) freqGreater) (tokens : List CString) :
    List (CString × ℚ) :=
  truncateFreqList (S.run (freqList tokens))

/-- The map `topWords` built from the sorted, truncated list. -/
def topWords (S : StdSort (CString × ℚ) freqGreater) (tokens : List CString) : Profile :=
  (topFreqList S tokens).foldl
    (fun topWords pair => topWords.update pair.1 (fun _ => pair.2) 0) StdMap.empty

/-- Computes the profile of a file.  `file` is the outcome of opening `filePath`.
The result is the returned map together with the text written to `cerr`. -/
def getTopWords (S : StdSort (CString × ℚ) freqGreater) (filePath : String)
    (file : Option (List CString)) : Profile × String :=
  match file with
  | none => (StdMap.empty, "Error: Could not open file " ++ filePath ++ "\n")
  | some tokens => (topWords S tokens, "")

/-- The words that the reading loop counts: the normalized tokens that are
neither empty nor excluded, in reading order. -/
def countedWords (tokens : List CString) : List CString :=
  (tokens.map normalizeWord).filter (fun w => decide (w ≠ []) && !isExcluded w)

/-! ## Similarity scorer -/

/-- Similarity of two profiles. -/
def calculateSimilarity (freqA freqB : Profile) : ℚ :=
  freqA.entries.foldl
    (fun similarityValue pair =>
      match freqB.find pair.1 with
      | some v => similarityValue + (pair.2 + v)
      | none => similarityValue)
    0

/-- A profile with the words `CAT` and `DOG`, each of frequency 1/2. -/
def profileCatDog : Profile :=
  ⟨[("CAT".toList, 1 / 2), ("DOG".toList, 1 / 2)], by decide⟩

/-- A profile with the single word `BIRD`. -/
def profileBird : Profile :=
  ⟨[("BIRD".toList, 1)], by decide⟩

/-! ## The arithmetic of `double`

The definitions above take a `double` as the exact rational it stands for.
Those below follow the same statements of the source with the rounding of IEEE
binary64 (round to nearest, ties to even) after every division and addition.
They cover the finite non-negative values in the normal range, which is where
every frequency and score of the program lies. -/

/-- A finite non-negative `double`: the number `mant * 2 ^ exp`. -/
structure Binary64 where
  /-- The significand, an integer. -/
  mant : Nat
  /-- The exponent of the unit of the significand. -/
  exp : Int
deriving DecidableEq

/-- The number a `double` stands for. -/
def Binary64.toRat (d : Binary64) : ℚ := (d.mant : ℚ) * (2 : ℚ) ^ d.exp

/-- The value `0.0`. -/
def Binary64.zero : Binary64 := ⟨0, 0⟩

/-- Auxiliary recursion of `bitLength`, on a bound for the number of steps. -/
def bitLengthAux : Nat → Nat → Nat
  | 0, _ => 0
  | fuel + 1, n => if n = 0 then 0 else bitLengthAux fuel (n / 2) + 1

/-- The number of binary digits of a natural number. -/
def bitLength (n : Nat) : Nat := bitLengthAux n n

/-- Rounding of the exact value `m * 2 ^ e` to a `double`: a significand of more
than 53 bits loses its low bits, to the nearest value, ties to the even one. -/
def roundNearestEven (m : Nat) (e : Int) : Binary64 :=
  if m < 2 ^ 53 then ⟨m, e⟩
  else
    let k := bitLength m - 53
    let q := m / 2 ^ k
    let r := m % 2 ^ k
    let half := 2 ^ (k - 1)
    if r > half ∨ (r = half ∧ q % 2 = 1) then ⟨q + 1, e + k⟩ else ⟨q, e + k⟩

/-- The sum `a + b` of two `double`s: the exact sum, rounded. -/
def Binary64.add (a b : Binary64) : Binary64 :=
  let e := min a.exp b.exp
  roundNearestEven (a.mant * 2 ^ (a.exp - e).toNat + b.mant * 2 ^ (b.exp - e).toNat) e

/-- The quotient `static_cast<double>(count) / totalWords` for `totalWords > 0`:
both integers convert exactly, and the exact quotient is rounded.  The quotient
is taken to 64 bits and more; the last bit of the number handed to the rounding
records whether the division left a remainder. -/
def Binary64.divNat (count total : Nat) : Binary64 :=
  let s := bitLength total + 64
  let q := count * 2 ^ s / total
  let r := count * 2 ^ s % total
  roundNearestEven (2 * q + (if r = 0 then 0 else 1)) (-((s : Int) + 1))

/-- A frequency profile with `double` values. -/
abbrev ProfileDouble := StdMap CString Binary64

/-- The vector `freqList` before it is sorted, in `double` arithmetic. -/
def freqListDouble (tokens : List CString) : List (CString × Binary64) :=
  (countWords tokens).1.entries.map
    (fun pair => (pair.1, Binary64.divNat pair.2 (countWords tokens).2))

/-- The comparator passed to `std::sort` in `getTopWords`, on `double`s. -/
def freqGreaterDouble (a b : CString × Binary64) : Prop := a.2.toRat > b.2.toRat

instance : DecidableRel freqGreaterDouble :=
  fun a b => inferInstanceAs (Decidable (a.2.toRat > b.2.toRat))

/-- The resize to `MAX_FREQUENT_WORDS`, on `double`s. -/
def truncateFreqListDouble (l : List (CString × Binary64)) : List (CString × Binary64) :=
  if l.length > MAX_FREQUENT_WORDS then l.take MAX_FREQUENT_WORDS else l

/-- The map `topWords` in `double` arithmetic. -/
def topWordsDouble (S : StdSort (CString × Binary64) freqGreaterDouble)
    (tokens : List CString) : ProfileDouble :=
  (truncateFreqListDouble (S.run (freqListDouble tokens))).foldl
    (fun topWords pair => topWords.update pair.1 (fun _ => pair.2) Binary64.zero) StdMap.empty

/-- The function `getTopWords` in `double` arithmetic: the returned map and the
text written to `cerr`. -/
def getTopWordsDouble (S : StdSort (CString × Binary64) freqGreaterDouble) (filePath : String)
    (file : Option (List CString)) : ProfileDouble × String :=
  match file with
  | none => (StdMap.empty, "Error: Could not open file " ++ filePath ++ "\n")
  | some tokens => (topWordsDouble S tokens, "")

/-- The comparison `operator<` of `tuple<double, int, int>`: lexicographic. -/
def tupleLess (a b : ℚ × Nat × Nat) : Prop :=
  a.1 < b.1 ∨ (¬ b.1 < a.1 ∧ (a.2.1 < b.2.1 ∨ (¬ b.2.1 < a.2.1 ∧ a.2.2 < b.2.2)))

instance : DecidableRel tupleLess := fun a b =>
  inferInstanceAs
    (Decidable (a.1 < b.1 ∨ (¬ b.1 < a.1 ∧ (a.2.1 < b.2.1 ∨ (¬ b.2.1 < a.2.1 ∧ a.2.2 < b.2.2)))))

theorem tupleLess_iff (a b : ℚ × Nat × Nat) :
    tupleLess a b ↔ toLex (a.1, toLex (a.2.1, a.2.2)) < toLex (b.1, toLex (b.2.1, b.2.2)) := by
  unfold tupleLess
  rw [Prod.Lex.lt_iff, Prod.Lex.lt_iff]
  simp only [not_lt]
  constructor
  · rintro (h | ⟨h1, h | ⟨h2, h3⟩⟩)
    · exact Or.inl h
    · rcases lt_or_eq_of_le h1 with h1 | h1
      · exact Or.inl h1
      · exact Or.inr ⟨h1, Or.inl h⟩
    · rcases lt_or_eq_of_le h1 with h1 | h1
      · exact Or.inl h1
      · rcases lt_or_eq_of_le h2 with h2 | h2
        · exact Or.inr ⟨h1, Or.inl h2⟩
        · exact Or.inr ⟨h1, Or.inr ⟨h2, h3⟩⟩
  · rintro (h | ⟨h1, h | ⟨h2, h3⟩⟩)
    · exact Or.inl h
    · exact Or.inr ⟨le_of_eq h1, Or.inl h⟩
    · exact Or.inr ⟨le_of_eq h1, Or.inr ⟨le_of_eq h2, h3⟩⟩

/-- Insertion sort as the `std::sort` of `findTopSimilarPairs`. -/
def tupleSort : StdSort (ℚ × Nat × Nat) tupleLess :=
  insertionStdSort tupleLess
    (fun a b => by
      rw [tupleLess_iff, tupleLess_iff, not_lt, not_lt]
      exact le_total _ _)
    (fun a b c h1 h2 => by
      rw [tupleLess_iff, not_lt] at *
      exact le_trans h1 h2)

/-- The vector `fileFrequencies`, each profile with the text its computation
wrote to `cerr`.  `disk` gives the outcome of opening each path. -/
def fileFrequencies (S : StdSort (CString × ℚ) freqGreater)
    (disk : String → Option (List CString)) (files : List String) : List (Profile × String) :=
  files.map (fun f => getTopWords S f (disk f))

/-- The assignment `M[i][j] = score` on a `vector<vector<double>>`. -/
def setCell (M : List (List ℚ)) (i j : Nat) (score : ℚ) : List (List ℚ) :=
  M.set i ((M.getD i []).set j score)

/-- The read `M[i][j]` on a `vector<vector<double>>`. -/
def cell (M : List (List ℚ)) (i j : Nat) : ℚ :=
  (M.getD i []).getD j 0

/-- The similarity matrix after the first pair of nested loops; it starts as
`numFiles` rows of `numFiles` entries `0.0`. -/
def similarityMatrix (profiles : List Profile) (numFiles : Nat) : List (List ℚ) :=
  (List.range numFiles).foldl
    (fun M i =>
      (List.range' (i + 1) (numFiles - (i + 1))).foldl
        (fun M j =>
          let score := calculateSimilarity (profiles.getD i StdMap.empty)
            (profiles.getD j StdMap.empty)
          setCell (setCell M i j score) j i score)
        M)
    (List.replicate numFiles (List.replicate numFiles 0))

/-- The vector `similarityValues` after the second pair of nested loops. -/
def similarityValues (M : List (List ℚ)) (numFiles : Nat) : List (ℚ × Nat × Nat) :=
  (List.range numFiles).foldl
    (fun values i =>
      (List.range' (i + 1) (numFiles - (i + 1))).foldl
        (fun values j => values ++ [(cell M i j, i, j)])
        values)
    []

/-- The statement `sort(similarityValues.rbegin(), similarityValues.rend())`:
the reversed sequence is sorted ascending by `operator<`. -/
def sortDescending (T : StdSort (ℚ × Nat × Nat) tupleLess) (values : List (ℚ × Nat × Nat)) :
    List (ℚ × Nat × Nat) :=
  (T.run values.reverse).reverse

/-- The sorted vector `similarityValues` for a list of files. -/
def rankedPairs (S : StdSort (CString × ℚ) freqGreater) (T : StdSort (ℚ × Nat × Nat) tupleLess)
    (disk : String → Option (List CString)) (files : List String) : List (ℚ × Nat × Nat) :=
  sortDescending T
    (similarityValues
      (similarityMatrix ((fileFrequencies S disk files).map Prod.fst) files.length)
      files.length)

/-- The profile `fileFrequencies[k]` of the file with index `k`. -/
def fileProfile (S : StdSort (CString × ℚ) freqGreater)
    (disk : String → Option (List CString)) (files : List String) (k : Nat) : Profile :=
  ((fileFrequencies S disk files).map Prod.fst).getD k StdMap.empty

/-- The vector `similarityValues` for a list of files, before it is sorted. -/
def scoredPairs (S : StdSort (CString × ℚ) freqGreater)
    (disk : String → Option (List CString)) (files : List String) : List (ℚ × Nat × Nat) :=
  similarityValues
    (similarityMatrix ((fileFrequencies S disk files).map Prod.fst) files.length)
    files.length

/-- The index pairs `(i, j)` in the order in which the nested loops
`for i in 0 .. numFiles`, `for j in i + 1 .. numFiles` visit them. -/
def indexPairs (numFiles : Nat) : List (Nat × Nat) :=
  (List.range numFiles).flatMap
    (fun i => (List.range' (i + 1) (numFiles - (i + 1))).map (fun j => (i, j)))

/-- A corpus of 64 paths. -/
def sampleFiles : List String := List.replicate 64 "book.txt"

/-- A disk on which every file opens and is empty. -/
def emptyFilesDisk : String → Option (List CString) := fun _ => some []

/-- A disk on which no file can be opened. -/
def unreadableDisk : String → Option (List CString) := fun _ => none

/-- A corpus of 64 distinct paths, `./BOOKS/0.txt` to `./BOOKS/63.txt`. -/
def shelfFiles : List String :=
  (List.range 64).map (fun i => "./BOOKS/" ++ toString i ++ ".txt")

/-- A corpus of 64 paths: two books followed by 62 fillers. -/
def twinFiles : List String := "a.txt" :: "b.txt" :: List.replicate 62 "filler.txt"

/-- A disk on which the fillers are empty files and every other file holds the
text `the cat`. -/
def twinDisk : String → Option (List CString) :=
  fun path => if path = "filler.txt" then some [] else some ["the".toList, "cat".toList]

/-- The final component of a path: `std::filesystem::path::filename` for a
path with `/` as separator. -/
def filename (path : String) : String :=
  String.mk ((path.toList.reverse.takeWhile (fun ch => decide (ch ≠ '/'))).reverse)

/-- The line printed for one ranked pair. -/
def reportLine (files : List String) (t : ℚ × Nat × Nat) : String :=
  "\"" ++ filename (files.getD t.2.1 "") ++ "\" and \"" ++ filename (files.getD t.2.2 "") ++ "\"\n"

/-- The pairs that the reporting loop prints: `k < 10 && k < similarityValues.size()`. -/
def reportedPairs (S : StdSort (CString × ℚ) freqGreater) (T : StdSort (ℚ × Nat × Nat) tupleLess)
    (disk : String → Option (List CString)) (files : List String) : List (ℚ × Nat × Nat) :=
  (rankedPairs S T disk files).take 10

/-- Finds and displays the top 10 pairs of similar files.  The result is the
text written to `cout` and the text written to `cerr`. -/
def findTopSimilarPairs (S : StdSort (CString × ℚ) freqGreater)
    (T : StdSort (ℚ × Nat × Nat) tupleLess)
    (disk : String → Option (List CString)) (files : List String) : String × String :=
  let numFiles := files.length
  if numFiles ≠ TOTAL_TEXT_BOOKS then
    ("", "Error: Expected " ++ toString TOTAL_TEXT_BOOKS ++ " files, but found " ++
      toString numFiles ++ "\n")
  else
    ("Top 10 similar pairs of books:\n" ++
        String.join ((reportedPairs S T disk files).map (reportLine files)),
      String.join ((fileFrequencies S disk files).map Prod.snd))

/-! ## Theorems: characters, `isExcluded`, `normalizeWord` -/

theorem char_le_iff (ch : Char) (n : Nat) (hn : n < 4294967296) :
    (UInt32.ofNat n ≤ ch.val ↔ n ≤ ch.toNat) ∧ (ch.val ≤ UInt32.ofNat n ↔ ch.toNat ≤ n) := by
  simp only [UInt32.le_def, BitVec.le_def, Char.toNat, UInt32.toNat]
  have : (UInt32.ofNat n).toBitVec.toNat = n := by
    simp [UInt32.ofNat, BitVec.toNat_ofNat, Nat.mod_eq_of_lt hn]
  rw [this]
  exact ⟨Iff.rfl, Iff.rfl⟩

theorem isUpper_iff (ch : Char) : ch.isUpper = (65 ≤ ch.toNat && ch.toNat ≤ 90) := by
  have h1 := (char_le_iff ch 65 (by norm_num)).1
  have h2 := (char_le_iff ch 90 (by norm_num)).2
  simp only [Char.isUpper, ge_iff_le]
  rw [Bool.eq_iff_iff]
  simp only [Bool.and_eq_true, decide_eq_true_eq]
  exact and_congr h1 h2

theorem isLower_iff (ch : Char) : ch.isLower = (97 ≤ ch.toNat && ch.toNat ≤ 122) := by
  have h1 := (char_le_iff ch 97 (by norm_num)).1
  have h2 := (char_le_iff ch 122 (by norm_num)).2
  simp only [Char.isLower, ge_iff_le]
  rw [Bool.eq_iff_iff]
  simp only [Bool.and_eq_true, decide_eq_true_eq]
  exact and_congr h1 h2

theorem isDigit_iff (ch : Char) : ch.isDigit = (48 ≤ ch.toNat && ch.toNat ≤ 57) := by
  have h1 := (char_le_iff ch 48 (by norm_num)).1
  have h2 := (char_le_iff ch 57 (by norm_num)).2
  simp only [Char.isDigit, ge_iff_le]
  rw [Bool.eq_iff_iff]
  simp only [Bool.and_eq_true, decide_eq_true_eq]
  exact and_congr h1 h2

/-- In the "C" locale `isalnum` holds exactly for the ASCII letters and digits. -/
theorem isalnum_eq (ch : Char) : isalnum ch = (ch.isAlpha || ch.isDigit) := by
  simp only [isalnum, Char.isAlpha, isUpper_iff, isLower_iff, isDigit_iff]
  cases (decide (48 ≤ ch.toNat) && decide (ch.toNat ≤ 57)) <;>
  cases (decide (65 ≤ ch.toNat) && decide (ch.toNat ≤ 90)) <;>
  cases (decide (97 ≤ ch.toNat) && decide (ch.toNat ≤ 122)) <;> rfl

/-- In the "C" locale `toupper` is the ASCII uppercasing. -/
theorem toupper_eq (ch : Char) : toupper ch = ch.toUpper := by
  simp [toupper, Char.toUpper]

theorem toNat_toupper (ch : Char) :
    (toupper ch).toNat = if 97 ≤ ch.toNat ∧ ch.toNat ≤ 122 then ch.toNat - 32 else ch.toNat := by
  unfold toupper
  split
  · rename_i h
    have hv : (ch.toNat - 32).isValidChar := by
      left; omega
    simp only [Char.ofNat, hv, dite_true]
    simp [Char.ofNatAux, Char.toNat, UInt32.toNat]
  · rfl

/-- The uppercased form of an alphanumeric character is an uppercase ASCII
letter or a digit. -/
theorem toupper_isUpper_or_isDigit (ch : Char) (h : isalnum ch = true) :
    (toupper ch).isUpper = true ∨ (toupper ch).isDigit = true := by
  rw [isUpper_iff, isDigit_iff, toNat_toupper]
  simp only [isalnum, Bool.or_eq_true, Bool.and_eq_true, decide_eq_true_eq] at h
  split
  · left; simp; omega
  · simp; omega

/-- The loop of `normalizeWord` started from any partial result. -/
theorem normalizeWord_foldl (word acc : CString) :
    word.foldl
        (fun normalized ch => if isalnum ch then normalized ++ [toupper ch] else normalized) acc
      = acc ++ (word.filter isalnum).map toupper := by
  induction word generalizing acc with
  | nil => simp
  | cons c cs ih =>
    simp only [List.foldl_cons, ih]
    by_cases h : isalnum c <;> simp [h, List.filter_cons]

theorem normalizeWord_eq_filter_map (word : CString) :
    normalizeWord word = (word.filter isalnum).map toupper := by
  unfold normalizeWord
  rw [normalizeWord_foldl]
  rfl

/-- `isExcluded` is exact, case-sensitive membership in `excludedWords`. -/
theorem isExcluded_iff_mem (word : CString) : isExcluded word = true ↔ word ∈ excludedWords := by
  have h : ∀ l : List CString, isExcludedLoop word l = true ↔ word ∈ l := by
    intro l
    induction l with
    | nil => simp [isExcludedLoop]
    | cons e rest ih =>
      simp only [isExcludedLoop, List.mem_cons]
      split_ifs with h1
      · simp [h1]
      · simp [h1, ih]
  exact h excludedWords

/-- C1, the code at the failing inputs: `isExcluded` answers `false` for each of
the six uppercased forms `A`, `AND`, `AN`, `OF`, `IN`, `THE` (and for the mixed
case `The`), although it answers `true` for the lowercase `the`. -/
theorem isExcluded_uppercase_false :
    isExcluded "A".toList = false ∧ isExcluded "AND".toList = false ∧
    isExcluded "AN".toList = false ∧ isExcluded "OF".toList = false ∧
    isExcluded "IN".toList = false ∧ isExcluded "THE".toList = false ∧
    isExcluded "The".toList = false ∧ isExcluded "the".toList = true := by
  decide

/-- C3: `normalizeWord` returns exactly the ASCII letters and digits of the
word, in their original order, each letter uppercased and every other character
deleted; every character of the result is an uppercase ASCII letter or a digit,
and the result is no longer than the word. -/
theorem normalizeWord_spec (word : CString) :
    normalizeWord word = normalizeWordSpec word ∧
    (∀ ch ∈ normalizeWord word, ch.isUpper = true ∨ ch.isDigit = true) ∧
    (normalizeWord word).length ≤ word.length := by
  rw [normalizeWord_eq_filter_map]
  refine ⟨?_, ?_, ?_⟩
  · unfold normalizeWordSpec
    have h1 : (fun ch : Char => ch.isAlpha || ch.isDigit) = isalnum := by
      funext ch; exact (isalnum_eq ch).symm
    have h2 : Char.toUpper = toupper := by
      funext ch; exact (toupper_eq ch).symm
    rw [h1, h2]
  · intro ch hch
    rcases List.mem_map.1 hch with ⟨c, hc, rfl⟩
    exact toupper_isUpper_or_isDigit c (List.mem_filter.1 hc).2
  · rw [List.length_map]
    exact List.length_filter_le _ _

/-! ## Theorems: the ordered map -/

section MapLemmas

variable {K : Type} [LinearOrder K] {V : Type}

theorem lookupEntries_eq_none (k : K) (l : List (K × V)) (h : ∀ e ∈ l, e.1 ≠ k) :
    lookupEntries k l = none := by
  induction l with
  | nil => rfl
  | cons a rest ih =>
    simp only [lookupEntries]
    rw [if_neg (h a (List.mem_cons_self _ _))]
    exact ih (fun e he => h e (List.mem_cons_of_mem _ he))

theorem lookupEntries_eq_some (k : K) (v : V) (l : List (K × V))
    (hs : l.Pairwise (fun a b => a.1 < b.1)) :
    lookupEntries k l = some v ↔ (k, v) ∈ l := by
  induction l with
  | nil => simp [lookupEntries]
  | cons a rest ih =>
    have hh := List.pairwise_cons.1 hs
    simp only [lookupEntries, List.mem_cons]
    split_ifs with h1
    · constructor
      · intro h
        left
        cases a
        simp only [Option.some.injEq] at h h1
        rw [← h, ← h1]
      · rintro (h | h)
        · rw [← h]
        · exact absurd (hh.1 _ h) (by simp [h1])
    · rw [ih hh.2]
      constructor
      · exact Or.inr
      · rintro (h | h)
        · exact absurd (by rw [← h]) h1
        · exact h

theorem lookupEntries_isSome (k : K) (l : List (K × V)) :
    (lookupEntries k l).isSome = true ↔ k ∈ l.map Prod.fst := by
  induction l with
  | nil => simp [lookupEntries]
  | cons a rest ih =>
    simp only [lookupEntries, List.map_cons, List.mem_cons]
    split_ifs with h1
    · simp [h1]
    · rw [ih]
      constructor
      · exact Or.inr
      · rintro (h | h)
        · exact absurd h.symm h1
        · exact h

theorem lookupEntries_updateEntries (k k' : K) (f : V → V) (d : V) (l : List (K × V))
    (hs : l.Pairwise (fun a b => a.1 < b.1)) :
    lookupEntries k' (updateEntries k f d l) =
      if k = k' then some (f ((lookupEntries k l).getD d)) else lookupEntries k' l := by
  induction l with
  | nil =>
    simp only [updateEntries, lookupEntries, Option.getD_none]
  | cons a rest ih =>
    have hh := List.pairwise_cons.1 hs
    simp only [updateEntries]
    split_ifs with h1 h2 h3 h4 h5
    · have : lookupEntries k (a :: rest) = none := by
        apply lookupEntries_eq_none
        intro e he
        rcases List.mem_cons.1 he with he | he
        · rw [he]; exact ne_of_gt h1
        · exact ne_of_gt (lt_trans h1 (hh.1 e he))
      rw [this]
      simp [lookupEntries, h2]
    · simp [lookupEntries, h2]
    · subst h4
      simp [lookupEntries, h3]
    · have : ¬ a.1 = k' := fun h => h4 (h3.symm.trans h)
      simp only [lookupEntries, if_neg this]
    · subst h5
      simp only [lookupEntries, if_neg h3]
      rw [ih hh.2]
      simp
    · simp only [lookupEntries]
      rw [ih hh.2]; simp [h5]

/-- Updating at an absent key adds one entry. -/
theorem updateEntries_perm_of_absent (k : K) (f : V → V) (d : V) (l : List (K × V))
    (h : ∀ e ∈ l, e.1 ≠ k) : (updateEntries k f d l).Perm ((k, f d) :: l) := by
  induction l with
  | nil => simp [updateEntries]
  | cons a rest ih =>
    simp only [updateEntries]
    split_ifs with h1 h2
    · exact List.Perm.refl _
    · exact absurd h2 (h a (List.mem_cons_self _ _))
    · exact ((ih (fun e he => h e (List.mem_cons_of_mem _ he))).cons a).trans
        (List.Perm.swap _ _ _)

/-- Updating at a present key keeps the keys. -/
theorem updateEntries_keys_of_present (k : K) (f : V → V) (d : V) (l : List (K × V))
    (hs : l.Pairwise (fun a b => a.1 < b.1)) (h : k ∈ l.map Prod.fst) :
    (updateEntries k f d l).map Prod.fst = l.map Prod.fst := by
  induction l with
  | nil => simp at h
  | cons a rest ih =>
    have hh := List.pairwise_cons.1 hs
    simp only [updateEntries]
    split_ifs with h1 h2
    · exfalso
      rcases List.mem_map.1 h with ⟨e, he, hk⟩
      rcases List.mem_cons.1 he with he | he
      · rw [he] at hk; rw [hk] at h1; exact lt_irrefl _ h1
      · have := lt_trans h1 (hh.1 e he)
        rw [hk] at this; exact lt_irrefl _ this
    · rfl
    · simp only [List.map_cons, List.cons.injEq, true_and]
      apply ih hh.2
      rcases List.mem_map.1 h with ⟨e, he, hk⟩
      rcases List.mem_cons.1 he with he | he
      · rw [he] at hk; exact absurd hk h2
      · exact List.mem_map.2 ⟨e, he, hk⟩

namespace StdMap

theorem keys_nodup (m : StdMap K V) : m.keys.Nodup := by
  unfold StdMap.keys
  rw [List.Nodup, List.pairwise_map]
  exact m.sorted.imp (fun h => ne_of_lt h)

theorem find_eq_some_iff (m : StdMap K V) (k : K) (v : V) :
    m.find k = some v ↔ (k, v) ∈ m.entries :=
  lookupEntries_eq_some k v m.entries m.sorted

theorem find_isSome_iff (m : StdMap K V) (k : K) : (m.find k).isSome = true ↔ k ∈ m.keys :=
  lookupEntries_isSome k m.entries

theorem find_eq_none_iff (m : StdMap K V) (k : K) : m.find k = none ↔ k ∉ m.keys := by
  rw [← find_isSome_iff]
  cases m.find k <;> simp

theorem find_update (m : StdMap K V) (k k' : K) (f : V → V) (d : V) :
    (m.update k f d).find k' = if k = k' then some (f ((m.find k).getD d)) else m.find k' :=
  lookupEntries_updateEntries k k' f d m.entries m.sorted

theorem find_empty (k : K) : (StdMap.empty : StdMap K V).find k = none := rfl

end StdMap

end MapLemmas

/-! ## Theorems: the similarity scorer -/

/-- The contribution of one entry of the first profile to the score. -/
theorem calculateSimilarity_foldl (B : Profile) (l : List (CString × ℚ)) (acc : ℚ) :
    l.foldl
        (fun similarityValue pair =>
          match B.find pair.1 with
          | some v => similarityValue + (pair.2 + v)
          | none => similarityValue)
        acc
      = acc + (l.map (fun pair =>
          match B.find pair.1 with
          | some v => pair.2 + v
          | none => 0)).sum := by
  induction l generalizing acc with
  | nil => simp
  | cons p rest ih =>
    simp only [List.foldl_cons, List.map_cons, List.sum_cons]
    rw [ih]
    cases B.find p.1 <;> simp [add_assoc]

theorem calculateSimilarity_eq_list_sum (A B : Profile) :
    calculateSimilarity A B =
      (A.entries.map (fun pair =>
        match B.find pair.1 with
        | some v => pair.2 + v
        | none => 0)).sum := by
  exact (calculateSimilarity_foldl B A.entries 0).trans (zero_add _)

theorem valueAt_of_mem (A : Profile) (p : CString × ℚ) (h : p ∈ A.entries) :
    A.valueAt p.1 = p.2 := by
  unfold StdMap.valueAt
  rw [(StdMap.find_eq_some_iff A p.1 p.2).2 h]
  rfl

/-- The score is the sum over the common keys of the two stored frequencies. -/
theorem calculateSimilarity_eq_sum (A B : Profile) :
    calculateSimilarity A B =
      ∑ w ∈ A.keys.toFinset ∩ B.keys.toFinset, (A.valueAt w + B.valueAt w) := by
  rw [calculateSimilarity_eq_list_sum]
  have h1 : A.entries.map (fun pair =>
        match B.find pair.1 with
        | some v => pair.2 + v
        | none => 0)
      = A.keys.map (fun w => if w ∈ B.keys.toFinset then A.valueAt w + B.valueAt w else 0) := by
    have hkeys : A.keys = A.entries.map Prod.fst := rfl
    rw [hkeys, List.map_map]
    apply List.map_congr_left
    intro p hp
    simp only [Function.comp_apply, List.mem_toFinset]
    rw [valueAt_of_mem A p hp]
    by_cases hk : p.1 ∈ B.keys
    · rw [if_pos hk]
      have := (StdMap.find_isSome_iff B p.1).2 hk
      rcases Option.isSome_iff_exists.1 this with ⟨v, hv⟩
      simp only [hv, StdMap.valueAt, Option.getD_some]
    · rw [if_neg hk]
      rw [(StdMap.find_eq_none_iff B p.1).2 hk]
  rw [h1, ← List.sum_toFinset _ (StdMap.keys_nodup A), Finset.sum_ite_mem]

theorem sum_values_eq (A : Profile) :
    (A.entries.map Prod.snd).sum = ∑ w ∈ A.keys.toFinset, A.valueAt w := by
  rw [List.sum_toFinset _ (StdMap.keys_nodup A)]
  have hkeys : A.keys = A.entries.map Prod.fst := rfl
  rw [hkeys, List.map_map]
  congr 1
  apply List.map_congr_left
  intro p hp
  exact (valueAt_of_mem A p hp).symm

/-- C4: the score of two profiles is the sum, over the words that are keys of
both, of the frequency stored in the first plus the frequency stored in the
second; it is `0` when the profiles have no key in common. -/
theorem calculateSimilarity_common_keys (A B : Profile) :
    calculateSimilarity A B =
        ∑ w ∈ A.keys.toFinset ∩ B.keys.toFinset, (A.valueAt w + B.valueAt w) ∧
    ((∀ w, w ∈ A.keys → w ∉ B.keys) → calculateSimilarity A B = 0) := by
  refine ⟨calculateSimilarity_eq_sum A B, ?_⟩
  intro h
  rw [calculateSimilarity_eq_sum]
  have : A.keys.toFinset ∩ B.keys.toFinset = ∅ := by
    ext w
    simp only [Finset.mem_inter, List.mem_toFinset, Finset.not_mem_empty, iff_false, not_and]
    exact h w
  rw [this, Finset.sum_empty]

theorem calculateSimilarity_common_keys_witness :
    (∀ w, w ∈ profileCatDog.keys → w ∉ profileBird.keys) ∧
    calculateSimilarity profileCatDog profileBird = 0 :=
  ⟨by decide, (calculateSimilarity_common_keys profileCatDog profileBird).2 (by decide)⟩

/-- C5: the score does not depend on the order of the two profiles. -/
theorem calculateSimilarity_comm (A B : Profile) :
    calculateSimilarity A B = calculateSimilarity B A := by
  rw [calculateSimilarity_eq_sum, calculateSimilarity_eq_sum, Finset.inter_comm]
  exact Finset.sum_congr rfl (fun w _ => add_comm _ _)

/-- C6: the score of a profile against itself is twice the sum of the
frequencies it stores. -/
theorem calculateSimilarity_self (A : Profile) :
    calculateSimilarity A A = 2 * (A.entries.map Prod.snd).sum := by
  rw [calculateSimilarity_eq_sum, sum_values_eq, Finset.inter_self, Finset.mul_sum]
  exact Finset.sum_congr rfl (fun w _ => (two_mul _).symm)

/-! ## Theorems: the reading loop of `getTopWords` -/

section UpdateLemmas

variable {K : Type} [LinearOrder K] {V : Type}

theorem mem_keys_updateEntries (k k' : K) (f : V → V) (d : V) (l : List (K × V)) :
    k' ∈ (updateEntries k f d l).map Prod.fst ↔ k' = k ∨ k' ∈ l.map Prod.fst := by
  induction l with
  | nil => simp [updateEntries]
  | cons a rest ih =>
    simp only [updateEntries]
    split_ifs with h1 h2
    · simp
    · simp only [List.map_cons, List.mem_cons]
      rw [h2]; tauto
    · simp only [List.map_cons, List.mem_cons, ih]
      tauto

theorem StdMap.mem_keys_update (m : StdMap K V) (k k' : K) (f : V → V) (d : V) :
    k' ∈ (m.update k f d).keys ↔ k' = k ∨ k' ∈ m.keys :=
  mem_keys_updateEntries k k' f d m.entries

/-- Assigning the entries of a list with distinct keys, none of them in the
map yet, adds exactly those entries. -/
theorem foldl_assign_perm (d : V) (l : List (K × V)) (m : StdMap K V)
    (hnd : (l.map Prod.fst).Nodup) (hdisj : ∀ p ∈ l, p.1 ∉ m.keys) :
    (l.foldl (fun acc p => acc.update p.1 (fun _ => p.2) d) m).entries.Perm (m.entries ++ l) := by
  induction l generalizing m with
  | nil => simp
  | cons p rest ih =>
    simp only [List.foldl_cons]
    have hnd' : p.1 ∉ rest.map Prod.fst ∧ (rest.map Prod.fst).Nodup :=
      List.nodup_cons.1 hnd
    have hp : ∀ e ∈ m.entries, e.1 ≠ p.1 := by
      intro e he heq
      exact hdisj p (List.mem_cons_self _ _) (List.mem_map.2 ⟨e, he, heq⟩)
    have h1 : (m.update p.1 (fun _ => p.2) d).entries.Perm (p :: m.entries) :=
      updateEntries_perm_of_absent p.1 (fun _ => p.2) d m.entries hp
    have h2 : ∀ q ∈ rest, q.1 ∉ (m.update p.1 (fun _ => p.2) d).keys := by
      intro q hq hmem
      rcases (StdMap.mem_keys_update m p.1 q.1 _ d).1 hmem with h | h
      · exact hnd'.1 (h ▸ List.mem_map.2 ⟨q, hq, rfl⟩)
      · exact hdisj q (List.mem_cons_of_mem _ hq) h
    refine (ih _ hnd'.2 h2).trans ?_
    refine (List.Perm.append_right rest h1).trans ?_
    simp only [List.cons_append]
    exact List.perm_middle.symm

end UpdateLemmas

/-- Incrementing the count of a word adds one to the sum of all counts. -/
theorem sum_updateEntries_succ (k : CString) (l : List (CString × Nat)) :
    ((updateEntries k (fun n => n + 1) 0 l).map Prod.snd).sum = (l.map Prod.snd).sum + 1 := by
  induction l with
  | nil => simp [updateEntries]
  | cons a rest ih =>
    simp only [updateEntries]
    split_ifs with h1 h2
    · simp only [List.map_cons, List.sum_cons]; omega
    · simp only [List.map_cons, List.sum_cons]; omega
    · simp only [List.map_cons, List.sum_cons, ih]; omega

/-- Whether the reading loop counts a token. -/
theorem countStep_eq (st : StdMap CString Nat × Nat) (word : CString) :
    countStep st word =
      if (decide (normalizeWord word ≠ []) && !isExcluded (normalizeWord word)) = true then
        (st.1.update (normalizeWord word) (fun n => n + 1) 0, st.2 + 1)
      else st := by
  unfold countStep
  by_cases h1 : normalizeWord word = [] <;> cases h2 : isExcluded (normalizeWord word) <;>
    simp [h1, h2]

theorem countedWords_cons (word : CString) (tokens : List CString) :
    countedWords (word :: tokens) =
      if (decide (normalizeWord word ≠ []) && !isExcluded (normalizeWord word)) = true then
        normalizeWord word :: countedWords tokens
      else countedWords tokens := by
  unfold countedWords
  rw [List.map_cons, List.filter_cons]

/-- The state of the reading loop after a sequence of tokens, from any state. -/
theorem foldl_countStep (tokens : List CString) (st : StdMap CString Nat × Nat) :
    (tokens.foldl countStep st).2 = st.2 + (countedWords tokens).length ∧
    ((tokens.foldl countStep st).1.entries.map Prod.snd).sum =
      (st.1.entries.map Prod.snd).sum + (countedWords tokens).length ∧
    (∀ w, w ∈ (tokens.foldl countStep st).1.keys ↔ w ∈ st.1.keys ∨ w ∈ countedWords tokens) ∧
    (∀ w, (tokens.foldl countStep st).1.valueAt w =
      st.1.valueAt w + (countedWords tokens).count w) := by
  induction tokens generalizing st with
  | nil => simp [countedWords]
  | cons word rest ih =>
    rw [List.foldl_cons, countedWords_cons, countStep_eq]
    split_ifs with h
    · obtain ⟨i1, i2, i3, i4⟩ := ih (st.1.update (normalizeWord word) (fun n => n + 1) 0, st.2 + 1)
      refine ⟨?_, ?_, ?_, ?_⟩
      · rw [i1, List.length_cons]; omega
      · rw [i2, List.length_cons]
        have := sum_updateEntries_succ (normalizeWord word) st.1.entries
        simp only [StdMap.update]
        omega
      · intro w
        rw [i3, StdMap.mem_keys_update, List.mem_cons]
        tauto
      · intro w
        rw [i4]
        simp only [StdMap.valueAt, StdMap.find_update, List.count_cons]
        by_cases hw : normalizeWord word = w
        · subst hw
          simp
          omega
        · have hw' : ¬ (normalizeWord word == w) = true := by simpa using hw
          simp [hw, hw']
    · exact ih st

theorem countWords_total (tokens : List CString) :
    (countWords tokens).2 = (countedWords tokens).length := by
  have := (foldl_countStep tokens (StdMap.empty, 0)).1
  simpa [countWords] using this

theorem countWords_sum (tokens : List CString) :
    ((countWords tokens).1.entries.map Prod.snd).sum = (countWords tokens).2 := by
  have := (foldl_countStep tokens (StdMap.empty, 0)).2.1
  rw [countWords_total]
  simpa [countWords, StdMap.empty] using this

theorem mem_keys_countWords (tokens : List CString) (w : CString) :
    w ∈ (countWords tokens).1.keys ↔ w ∈ countedWords tokens := by
  have := (foldl_countStep tokens (StdMap.empty, 0)).2.2.1 w
  simpa [countWords, StdMap.empty, StdMap.keys] using this

theorem countWords_valueAt (tokens : List CString) (w : CString) :
    (countWords tokens).1.valueAt w = (countedWords tokens).count w := by
  have := (foldl_countStep tokens (StdMap.empty, 0)).2.2.2 w
  simpa [countWords, StdMap.empty, StdMap.valueAt, StdMap.find, lookupEntries] using this

/-- The map `wordCounts` has one entry per distinct counted word. -/
theorem countWords_size (tokens : List CString) :
    (countWords tokens).1.size = (countedWords tokens).toFinset.card := by
  have h : (countWords tokens).1.keys.toFinset = (countedWords tokens).toFinset := by
    ext w
    simp only [List.mem_toFinset]
    exact mem_keys_countWords tokens w
  rw [← h, List.toFinset_card_of_nodup (StdMap.keys_nodup _)]
  simp [StdMap.size, StdMap.keys]

/-! ## Theorems: frequencies, sorting and truncation in `getTopWords` -/

theorem freqList_keys (tokens : List CString) :
    (freqList tokens).map Prod.fst = (countWords tokens).1.keys := by
  unfold freqList StdMap.keys
  rw [List.map_map]
  rfl

theorem freqList_length (tokens : List CString) :
    (freqList tokens).length = (countWords tokens).1.size := by
  unfold freqList StdMap.size
  rw [List.length_map]

theorem freqList_nodup (tokens : List CString) : ((freqList tokens).map Prod.fst).Nodup := by
  rw [freqList_keys]
  exact StdMap.keys_nodup _

/-- The entries of `freqList` are the counted words with `count / totalWords`. -/
theorem mem_freqList (tokens : List CString) (w : CString) (f : ℚ) :
    (w, f) ∈ freqList tokens ↔
      ∃ c : Nat, (countWords tokens).1.find w = some c ∧
        f = (c : ℚ) / ((countWords tokens).2 : ℚ) := by
  unfold freqList
  rw [List.mem_map]
  constructor
  · rintro ⟨p, hp, heq⟩
    simp only [Prod.mk.injEq] at heq
    refine ⟨p.2, ?_, heq.2.symm⟩
    rw [StdMap.find_eq_some_iff, ← heq.1]
    exact hp
  · rintro ⟨c, hc, hf⟩
    exact ⟨(w, c), (StdMap.find_eq_some_iff _ w c).1 hc, by rw [hf]⟩

theorem sum_map_div (l : List (CString × Nat)) (t : ℚ) :
    (l.map (fun pair => (pair.2 : ℚ) / t)).sum = ((l.map Prod.snd).sum : ℚ) / t := by
  induction l with
  | nil => simp
  | cons a rest ih =>
    simp only [List.map_cons, List.sum_cons, ih, Nat.cast_add]
    rw [add_div]

/-- The resize keeps the first `MAX_FREQUENT_WORDS` elements. -/
theorem truncateFreqList_eq_take (l : List (CString × ℚ)) :
    truncateFreqList l = l.take MAX_FREQUENT_WORDS := by
  unfold truncateFreqList
  split_ifs with h
  · rfl
  · exact (List.take_of_length_le (not_lt.1 h)).symm

theorem topFreqList_eq_take (S : StdSort (CString × ℚ) freqGreater) (tokens : List CString) :
    topFreqList S tokens = (S.run (freqList tokens)).take MAX_FREQUENT_WORDS :=
  truncateFreqList_eq_take _

theorem topFreqList_length (S : StdSort (CString × ℚ) freqGreater) (tokens : List CString) :
    (topFreqList S tokens).length = min MAX_FREQUENT_WORDS (countWords tokens).1.size := by
  rw [topFreqList_eq_take, List.length_take, (S.perm _).length_eq, freqList_length]

theorem topFreqList_nodup (S : StdSort (CString × ℚ) freqGreater) (tokens : List CString) :
    ((topFreqList S tokens).map Prod.fst).Nodup := by
  rw [topFreqList_eq_take]
  have h1 : ((S.run (freqList tokens)).map Prod.fst).Nodup :=
    (((S.perm (freqList tokens)).map Prod.fst).nodup_iff).2 (freqList_nodup tokens)
  exact h1.sublist ((List.take_sublist _ _).map Prod.fst)

/-- The returned map holds exactly the entries of the sorted, truncated list. -/
theorem topWords_entries_perm (S : StdSort (CString × ℚ) freqGreater) (tokens : List CString) :
    (topWords S tokens).entries.Perm (topFreqList S tokens) := by
  have h := foldl_assign_perm (0 : ℚ) (topFreqList S tokens) StdMap.empty
    (topFreqList_nodup S tokens) (fun p _ hp => by simp [StdMap.empty, StdMap.keys] at hp)
  simpa [topWords, StdMap.empty] using h

theorem find_topWords_iff (S : StdSort (CString × ℚ) freqGreater) (tokens : List CString)
    (w : CString) (f : ℚ) :
    (topWords S tokens).find w = some f ↔ (w, f) ∈ topFreqList S tokens := by
  rw [StdMap.find_eq_some_iff]
  exact (topWords_entries_perm S tokens).mem_iff

theorem mem_keys_topWords_iff (S : StdSort (CString × ℚ) freqGreater) (tokens : List CString)
    (w : CString) :
    w ∈ (topWords S tokens).keys ↔ w ∈ (topFreqList S tokens).map Prod.fst :=
  ((topWords_entries_perm S tokens).map Prod.fst).mem_iff

theorem topWords_size (S : StdSort (CString × ℚ) freqGreater) (tokens : List CString) :
    (topWords S tokens).size = min MAX_FREQUENT_WORDS (countedWords tokens).toFinset.card := by
  unfold StdMap.size
  rw [(topWords_entries_perm S tokens).length_eq, topFreqList_length, countWords_size]

/-- When at most `MAX_FREQUENT_WORDS` distinct words are counted, the profile
holds every entry of `freqList`, whatever the sort does. -/
theorem topWords_entries_of_le (S : StdSort (CString × ℚ) freqGreater) (tokens : List CString)
    (h : (freqList tokens).length ≤ MAX_FREQUENT_WORDS) (w : CString) (f : ℚ) :
    (topWords S tokens).find w = some f ↔ (w, f) ∈ freqList tokens := by
  rw [find_topWords_iff, topFreqList_eq_take,
    List.take_of_length_le (by rw [(S.perm _).length_eq]; exact h)]
  exact (S.perm _).mem_iff

/-- C2, the code at a failing input: for the tokens `the cat` the profile
returned by `getTopWords` has the key `THE`, with frequency 1/2, and the token
`the` is counted in `totalWords`, which is 2; the exclusion test does not fire
on the normalized token `THE`. -/
theorem getTopWords_keeps_excluded_word (S : StdSort (CString × ℚ) freqGreater) :
    (getTopWords S "book.txt" (some ["the".toList, "cat".toList])).1.find "THE".toList
        = some (1 / 2) ∧
    (countWords ["the".toList, "cat".toList]).2 = 2 ∧
    isExcluded (normalizeWord "the".toList) = false := by
  refine ⟨?_, by decide, by decide⟩
  show (topWords S ["the".toList, "cat".toList]).find "THE".toList = some (1 / 2)
  have hlen : (freqList ["the".toList, "cat".toList]).length ≤ MAX_FREQUENT_WORDS := by
    rw [freqList_length]; decide
  rw [topWords_entries_of_le S _ hlen, mem_freqList]
  refine ⟨1, by decide, ?_⟩
  have h2 : (countWords ["the".toList, "cat".toList]).2 = 2 := by decide
  rw [h2]
  norm_num

/-- C7: when at least one word is counted, the frequencies of `freqList`
(before sorting and truncation) sum to exactly 1, and `freqList` has an entry
for exactly the counted words. -/
theorem freqList_sum_eq_one (tokens : List CString) (h : 0 < (countWords tokens).2) :
    ((freqList tokens).map Prod.snd).sum = 1 ∧
    ∀ w, w ∈ (freqList tokens).map Prod.fst ↔ w ∈ countedWords tokens := by
  constructor
  · unfold freqList
    rw [List.map_map]
    have hfun : (Prod.snd ∘ fun pair : CString × Nat =>
        (pair.1, (pair.2 : ℚ) / ((countWords tokens).2 : ℚ)))
        = fun pair => (pair.2 : ℚ) / ((countWords tokens).2 : ℚ) := rfl
    rw [hfun, sum_map_div, countWords_sum]
    have hne : ((countWords tokens).2 : ℚ) ≠ 0 := by
      exact_mod_cast (Nat.pos_iff_ne_zero.1 h)
    exact div_self hne
  · intro w
    rw [freqList_keys]
    exact mem_keys_countWords tokens w

theorem freqList_sum_eq_one_witness :
    0 < (countWords ["the".toList, "cat".toList, "the".toList]).2 ∧
    ((freqList ["the".toList, "cat".toList, "the".toList]).map Prod.snd).sum = 1 :=
  ⟨by decide, (freqList_sum_eq_one ["the".toList, "cat".toList, "the".toList] (by decide)).1⟩

/-- C8: whatever the input (a token sequence or a file that cannot be opened),
the returned profile has at most `MAX_FREQUENT_WORDS` = 100 entries, and exactly
the minimum of 100 and the number of distinct counted words. -/
theorem getTopWords_size (S : StdSort (CString × ℚ) freqGreater) (filePath : String)
    (file : Option (List CString)) :
    (getTopWords S filePath file).1.size ≤ MAX_FREQUENT_WORDS ∧
    MAX_FREQUENT_WORDS = 100 ∧
    (getTopWords S filePath file).1.size =
      min 100 (match file with
        | none => 0
        | some tokens => (countedWords tokens).toFinset.card) := by
  cases file with
  | none =>
    refine ⟨?_, rfl, ?_⟩
    · exact Nat.zero_le _
    · rfl
  | some tokens =>
    have h : (getTopWords S filePath (some tokens)).1.size
        = min MAX_FREQUENT_WORDS (countedWords tokens).toFinset.card := topWords_size S tokens
    refine ⟨?_, rfl, h⟩
    rw [h]
    exact Nat.min_le_left _ _

/-- C9: every word kept in the profile keeps its computed frequency
`count / totalWords`, and that frequency is at least the frequency of every
counted word that the truncation dropped. -/
theorem getTopWords_keeps_most_frequent (S : StdSort (CString × ℚ) freqGreater)
    (filePath : String) (tokens : List CString) (w : CString) (f : ℚ)
    (h : (getTopWords S filePath (some tokens)).1.find w = some f) :
    (∃ c : Nat, (countWords tokens).1.find w = some c ∧
      f = (c : ℚ) / ((countWords tokens).2 : ℚ)) ∧
    ∀ (w' : CString) (c' : Nat), (countWords tokens).1.find w' = some c' →
      (getTopWords S filePath (some tokens)).1.find w' = none →
      (c' : ℚ) / ((countWords tokens).2 : ℚ) ≤ f := by
  have h' : (topWords S tokens).find w = some f := h
  rw [find_topWords_iff, topFreqList_eq_take] at h'
  constructor
  · rw [← mem_freqList]
    exact (S.perm _).mem_iff.1 (List.mem_of_mem_take h')
  · intro w' c' hc' hnone
    have hnone' : (topWords S tokens).find w' = none := hnone
    have hmem : (w', (c' : ℚ) / ((countWords tokens).2 : ℚ)) ∈ S.run (freqList tokens) :=
      (S.perm _).mem_iff.2 ((mem_freqList tokens w' _).2 ⟨c', hc', rfl⟩)
    rw [← List.take_append_drop MAX_FREQUENT_WORDS (S.run (freqList tokens))] at hmem
    rcases List.mem_append.1 hmem with hm | hm
    · exfalso
      rw [StdMap.find_eq_none_iff, mem_keys_topWords_iff, topFreqList_eq_take] at hnone'
      exact hnone' (List.mem_map.2 ⟨_, hm, rfl⟩)
    · have hs := S.sorted (freqList tokens)
      rw [← List.take_append_drop MAX_FREQUENT_WORDS (S.run (freqList tokens))] at hs
      have := (List.pairwise_append.1 hs).2.2 _ h' _ hm
      exact not_lt.1 this

theorem getTopWords_keeps_most_frequent_witness :
    (getTopWords freqSort "book.txt" (some ["the".toList, "cat".toList, "the".toList])).1.find
        "THE".toList = some (2 / 3) ∧
    ∃ c : Nat, (countWords ["the".toList, "cat".toList, "the".toList]).1.find "THE".toList
        = some c ∧
      (2 / 3 : ℚ) = (c : ℚ) / ((countWords ["the".toList, "cat".toList, "the".toList]).2 : ℚ) :=
  have hfind : (getTopWords freqSort "book.txt"
      (some ["the".toList, "cat".toList, "the".toList])).1.find "THE".toList = some (2 / 3) :=
    (topWords_entries_of_le freqSort _ (by rw [freqList_length]; decide) _ _).2
      ((mem_freqList _ _ _).2 ⟨2, by decide, by
        have h2 : (countWords ["the".toList, "cat".toList, "the".toList]).2 = 3 := by decide
        rw [h2]; norm_num⟩)
  ⟨hfind, (getTopWords_keeps_most_frequent freqSort "book.txt" _ _ _ hfind).1⟩

/-! ## Theorems: the corpus ranker -/

theorem foldl_append_singleton {α β : Type} (g : α → β) (l : List α) (acc : List β) :
    l.foldl (fun values j => values ++ [g j]) acc = acc ++ l.map g := by
  induction l generalizing acc with
  | nil => simp
  | cons a rest ih => simp [ih]

theorem foldl_append_flatMap {α β : Type} (g : α → List β) (l : List α) (acc : List β) :
    l.foldl (fun values i => values ++ g i) acc = acc ++ l.flatMap g := by
  induction l generalizing acc with
  | nil => simp
  | cons a rest ih => simp [ih]

/-- The vector `similarityValues` lists the pairs `(i, j)`, `i < j < numFiles`,
row by row. -/
theorem similarityValues_eq_flatMap (M : List (List ℚ)) (numFiles : Nat) :
    similarityValues M numFiles =
      (List.range numFiles).flatMap (fun i =>
        (List.range' (i + 1) (numFiles - (i + 1))).map (fun j => (cell M i j, i, j))) := by
  unfold similarityValues
  have h : (fun (values : List (ℚ × Nat × Nat)) (i : Nat) =>
        (List.range' (i + 1) (numFiles - (i + 1))).foldl
          (fun values j => values ++ [(cell M i j, i, j)]) values)
      = fun values i => values ++
          (List.range' (i + 1) (numFiles - (i + 1))).map (fun j => (cell M i j, i, j)) := by
    funext values i
    exact foldl_append_singleton (fun j => (cell M i j, i, j)) _ values
  rw [h, foldl_append_flatMap, List.nil_append]

theorem similarityValues_length (M : List (List ℚ)) (numFiles : Nat) :
    (similarityValues M numFiles).length =
      ((List.range numFiles).map (fun i => numFiles - (i + 1))).sum := by
  rw [similarityValues_eq_flatMap, List.length_flatMap]
  congr 1
  apply List.map_congr_left
  intro i _
  simp only [Function.comp_apply, List.length_map, List.length_range']

/-- The sort of the reversed range rearranges the vector. -/
theorem sortDescending_perm (T : StdSort (ℚ × Nat × Nat) tupleLess)
    (values : List (ℚ × Nat × Nat)) : (sortDescending T values).Perm values :=
  (List.reverse_perm _).trans ((T.perm _).trans (List.reverse_perm _))

/-- After the sort no element is less than a later one. -/
theorem sortDescending_sorted (T : StdSort (ℚ × Nat × Nat) tupleLess)
    (values : List (ℚ × Nat × Nat)) :
    (sortDescending T values).Pairwise (fun a b => ¬ tupleLess a b) := by
  unfold sortDescending
  rw [List.pairwise_reverse]
  exact T.sorted _

theorem score_le_of_not_tupleLess (a b : ℚ × Nat × Nat) (h : ¬ tupleLess a b) : b.1 ≤ a.1 := by
  unfold tupleLess at h
  exact not_lt.1 (fun hlt => h (Or.inl hlt))

/-! ## Theorems: the file-count check and the dead exclusion test -/

/-- C11: for a list of files whose length `n` is not 64, `findTopSimilarPairs`
writes nothing to `cout` and exactly the diagnostic
`Error: Expected 64 files, but found n` to `cerr`; no file is opened and no
profile is built, so the outcome is the same whatever the files hold and
whatever the sorts are. -/
theorem findTopSimilarPairs_wrong_count (S : StdSort (CString × ℚ) freqGreater)
    (T : StdSort (ℚ × Nat × Nat) tupleLess) (disk : String → Option (List CString))
    (files : List String) (h : files.length ≠ 64) :
    findTopSimilarPairs S T disk files =
        ("", "Error: Expected 64 files, but found " ++ toString files.length ++ "\n") ∧
    ∀ (S' : StdSort (CString × ℚ) freqGreater) (T' : StdSort (ℚ × Nat × Nat) tupleLess)
      (disk' : String → Option (List CString)),
      findTopSimilarPairs S' T' disk' files = findTopSimilarPairs S T disk files := by
  have key : ∀ (S' : StdSort (CString × ℚ) freqGreater) (T' : StdSort (ℚ × Nat × Nat) tupleLess)
      (disk' : String → Option (List CString)),
      findTopSimilarPairs S' T' disk' files =
        ("", "Error: Expected 64 files, but found " ++ toString files.length ++ "\n") := by
    intro S' T' disk'
    unfold findTopSimilarPairs
    have hn : files.length ≠ TOTAL_TEXT_BOOKS := h
    simp only [if_pos hn]
    have h64 : toString TOTAL_TEXT_BOOKS = "64" := by decide
    rw [h64]
    rfl
  exact ⟨key S T disk, fun S' T' disk' => (key S' T' disk').trans (key S T disk).symm⟩

theorem findTopSimilarPairs_wrong_count_witness :
    (List.replicate 63 "book.txt").length ≠ 64 ∧
    findTopSimilarPairs freqSort tupleSort (fun _ => some ["the".toList, "cat".toList])
        (List.replicate 63 "book.txt") =
      ("", "Error: Expected 64 files, but found 63\n") :=
  ⟨by decide,
    (findTopSimilarPairs_wrong_count freqSort tupleSort
      (fun _ => some ["the".toList, "cat".toList]) (List.replicate 63 "book.txt")
      (by decide)).1⟩

/-- Every character of a normalized word is an uppercase letter or a digit. -/
theorem normalizeWord_chars (word : CString) (ch : Char) (h : ch ∈ normalizeWord word) :
    ch.isUpper = true ∨ ch.isDigit = true := by
  rw [normalizeWord_eq_filter_map] at h
  rcases List.mem_map.1 h with ⟨c, hc, rfl⟩
  exact toupper_isUpper_or_isDigit c (List.mem_filter.1 hc).2

/-- Every excluded word contains a character that is neither an uppercase
letter nor a digit. -/
theorem excludedWords_have_lowercase (e : CString) (h : e ∈ excludedWords) :
    ∃ ch ∈ e, ¬ (ch.isUpper = true ∨ ch.isDigit = true) := by
  simp only [excludedWords, List.mem_cons, List.mem_singleton, List.not_mem_nil, or_false] at h
  rcases h with h | h | h | h | h | h <;> subst h <;> decide

theorem isExcluded_normalizeWord (word : CString) : isExcluded (normalizeWord word) = false := by
  cases hex : isExcluded (normalizeWord word) with
  | false => rfl
  | true =>
    exfalso
    rcases excludedWords_have_lowercase _ ((isExcluded_iff_mem _).1 hex) with ⟨ch, hch, hno⟩
    exact hno (normalizeWord_chars word ch hch)

theorem countedWords_eq_nonempty (tokens : List CString) :
    countedWords tokens = (tokens.map normalizeWord).filter (fun w => decide (w ≠ [])) := by
  unfold countedWords
  apply List.filter_congr
  intro w hw
  rcases List.mem_map.1 hw with ⟨t, _, rfl⟩
  rw [isExcluded_normalizeWord]
  simp

/-- C19: `isExcluded (normalizeWord w)` is false for every string `w`, so the
exclusion test of the reading loop never removes a token: the counted words are
all the non-empty normalized tokens, and `totalWords` is their number. -/
theorem isExcluded_normalizeWord_false (word : CString) (tokens : List CString) :
    isExcluded (normalizeWord word) = false ∧
    countedWords tokens = (tokens.map normalizeWord).filter (fun w => decide (w ≠ [])) ∧
    (countWords tokens).2 =
      ((tokens.map normalizeWord).filter (fun w => decide (w ≠ []))).length ∧
    (∀ w, w ∈ (countWords tokens).1.keys ↔ w ≠ [] ∧ w ∈ tokens.map normalizeWord) := by
  refine ⟨isExcluded_normalizeWord word, countedWords_eq_nonempty tokens, ?_, ?_⟩
  · rw [countWords_total, countedWords_eq_nonempty]
  · intro w
    rw [mem_keys_countWords, countedWords_eq_nonempty, List.mem_filter]
    simp only [decide_eq_true_eq]
    exact and_comm

/-! ## Theorems: range of the frequencies and of the score -/

/-- The frequencies of `freqList` sum to `totalWords / totalWords`. -/
theorem freqList_sum (tokens : List CString) :
    ((freqList tokens).map Prod.snd).sum =
      ((countWords tokens).2 : ℚ) / ((countWords tokens).2 : ℚ) := by
  unfold freqList
  rw [List.map_map]
  have hfun : (Prod.snd ∘ fun pair : CString × Nat =>
      (pair.1, (pair.2 : ℚ) / ((countWords tokens).2 : ℚ)))
      = fun pair => (pair.2 : ℚ) / ((countWords tokens).2 : ℚ) := rfl
  rw [hfun, sum_map_div, countWords_sum]

/-- An entry of `freqList` holds the number of counted occurrences of its word
divided by `totalWords`, a number in `(0, 1]`. -/
theorem freqList_entry (tokens : List CString) (w : CString) (f : ℚ)
    (h : (w, f) ∈ freqList tokens) :
    (countWords tokens).1.find w = some ((countedWords tokens).count w) ∧
    f = ((countedWords tokens).count w : ℚ) / ((countWords tokens).2 : ℚ) ∧
    0 < f ∧ f ≤ 1 := by
  rcases (mem_freqList tokens w f).1 h with ⟨c, hc, hf⟩
  have hval : (countWords tokens).1.valueAt w = c := by
    simp [StdMap.valueAt, hc]
  have hcount : c = (countedWords tokens).count w := by
    rw [← hval, countWords_valueAt]
  have hmem : w ∈ countedWords tokens := by
    rw [← mem_keys_countWords, ← StdMap.find_isSome_iff, hc]
    rfl
  have hpos : 0 < (countedWords tokens).count w := List.count_pos_iff.2 hmem
  have hle : (countedWords tokens).count w ≤ (countWords tokens).2 := by
    rw [countWords_total]
    exact List.count_le_length w (countedWords tokens)
  have htot : (0 : ℚ) < ((countWords tokens).2 : ℚ) := by
    exact_mod_cast lt_of_lt_of_le hpos hle
  subst hcount
  refine ⟨hc, hf, ?_, ?_⟩
  · rw [hf]
    exact div_pos (by exact_mod_cast hpos) htot
  · rw [hf, div_le_one htot]
    exact_mod_cast hle

theorem sum_take_le (l : List ℚ) (k : Nat) (h : ∀ x ∈ l, 0 ≤ x) : (l.take k).sum ≤ l.sum := by
  have hd : 0 ≤ (l.drop k).sum :=
    List.sum_nonneg (fun x hx => h x (List.mem_of_mem_drop hx))
  calc (l.take k).sum ≤ (l.take k).sum + (l.drop k).sum := le_add_of_nonneg_right hd
    _ = l.sum := by rw [← List.sum_append, List.take_append_drop]

/-- The profile of any file has non-negative frequencies that sum to at most 1. -/
theorem getTopWords_nonneg_sum_le_one (S : StdSort (CString × ℚ) freqGreater)
    (filePath : String) (file : Option (List CString)) :
    (∀ p ∈ (getTopWords S filePath file).1.entries, 0 ≤ p.2) ∧
    ((getTopWords S filePath file).1.entries.map Prod.snd).sum ≤ 1 := by
  cases file with
  | none =>
    constructor
    · intro p hp
      exact absurd hp (List.not_mem_nil p)
    · show ((([] : List (CString × ℚ)).map Prod.snd).sum ≤ 1)
      simp
  | some tokens =>
    have hrun : ∀ p ∈ S.run (freqList tokens), 0 ≤ p.2 := by
      intro p hp
      have := (freqList_entry tokens p.1 p.2 ((S.perm _).mem_iff.1 hp)).2.2.1
      exact le_of_lt this
    constructor
    · intro p hp
      have h1 : p ∈ topFreqList S tokens := (topWords_entries_perm S tokens).mem_iff.1 hp
      rw [topFreqList_eq_take] at h1
      exact hrun p (List.mem_of_mem_take h1)
    · have h1 : ((topWords S tokens).entries.map Prod.snd).sum
          = ((topFreqList S tokens).map Prod.snd).sum :=
        ((topWords_entries_perm S tokens).map Prod.snd).sum_eq
      have h2 : ((S.run (freqList tokens)).map Prod.snd).sum
          = ((freqList tokens).map Prod.snd).sum :=
        ((S.perm (freqList tokens)).map Prod.snd).sum_eq
      show ((topWords S tokens).entries.map Prod.snd).sum ≤ 1
      rw [h1, topFreqList_eq_take, List.map_take]
      refine le_trans (sum_take_le _ _ ?_) ?_
      · intro x hx
        rcases List.mem_map.1 hx with ⟨p, hp, rfl⟩
        exact hrun p hp
      · rw [h2, freqList_sum]
        exact div_self_le_one _

/-- C17: every entry `(word, f)` of the profile returned by `getTopWords` has
`f` = (number of counted occurrences of the word) / `totalWords`, where that
number is the count stored in `wordCounts`, with `0 < f ≤ 1`; and the entries
of the profile sum to at most 1. -/
theorem getTopWords_frequency_range (S : StdSort (CString × ℚ) freqGreater)
    (filePath : String) (tokens : List CString) :
    (∀ (w : CString) (f : ℚ), (getTopWords S filePath (some tokens)).1.find w = some f →
      (countWords tokens).1.find w = some ((countedWords tokens).count w) ∧
      f = ((countedWords tokens).count w : ℚ) / ((countWords tokens).2 : ℚ) ∧
      0 < f ∧ f ≤ 1) ∧
    ((getTopWords S filePath (some tokens)).1.entries.map Prod.snd).sum ≤ 1 := by
  refine ⟨?_, (getTopWords_nonneg_sum_le_one S filePath (some tokens)).2⟩
  intro w f h
  have h' : (topWords S tokens).find w = some f := h
  rw [find_topWords_iff, topFreqList_eq_take] at h'
  exact freqList_entry tokens w f ((S.perm _).mem_iff.1 (List.mem_of_mem_take h'))

theorem getTopWords_frequency_range_witness :
    (getTopWords freqSort "book.txt" (some ["the".toList, "cat".toList, "the".toList])).1.find
        "CAT".toList = some (1 / 3) ∧
    (0 : ℚ) < 1 / 3 ∧ (1 / 3 : ℚ) ≤ 1 :=
  have hfind : (getTopWords freqSort "book.txt"
      (some ["the".toList, "cat".toList, "the".toList])).1.find "CAT".toList = some (1 / 3) :=
    (topWords_entries_of_le freqSort _ (by rw [freqList_length]; decide) _ _).2
      ((mem_freqList _ _ _).2 ⟨1, by decide, by
        have h2 : (countWords ["the".toList, "cat".toList, "the".toList]).2 = 3 := by decide
        rw [h2]; norm_num⟩)
  ⟨hfind,
    ((getTopWords_frequency_range freqSort "book.txt"
      ["the".toList, "cat".toList, "the".toList]).1 _ _ hfind).2.2⟩

theorem countWords_entries_eq_nil (tokens : List CString) (h : (countWords tokens).2 = 0) :
    (countWords tokens).1.entries = [] := by
  have hc : countedWords tokens = [] := by
    rw [countWords_total] at h
    exact List.length_eq_zero.1 h
  have hk : (countWords tokens).1.keys = [] := by
    apply List.eq_nil_iff_forall_not_mem.2
    intro w hw
    rw [mem_keys_countWords, hc] at hw
    exact absurd hw (List.not_mem_nil w)
  exact List.map_eq_nil_iff.1 hk

theorem topWords_eq_empty (S : StdSort (CString × ℚ) freqGreater) (tokens : List CString)
    (h : freqList tokens = []) : topWords S tokens = StdMap.empty := by
  have hrun : S.run (freqList tokens) = [] := by
    have := S.perm (freqList tokens)
    rw [h] at this
    rw [h]
    exact List.perm_nil.1 this
  unfold topWords topFreqList
  rw [hrun]
  rfl

/-- C18: the loop that fills `freqList` evaluates `count / totalWords` once for
each entry of `wordCounts`.  When no token is countable (`totalWords = 0`) the
map `wordCounts` is empty, so no division is evaluated, `freqList` is empty and
the returned profile is the empty map; and whenever `wordCounts` has an entry
(a division is evaluated) `totalWords ≥ 1`. -/
theorem getTopWords_no_division_by_zero (S : StdSort (CString × ℚ) freqGreater)
    (filePath : String) (tokens : List CString) :
    ((countWords tokens).2 = 0 →
      (countWords tokens).1.entries = [] ∧ freqList tokens = [] ∧
      (getTopWords S filePath (some tokens)).1 = StdMap.empty) ∧
    ((countWords tokens).1.entries ≠ [] → 1 ≤ (countWords tokens).2) := by
  constructor
  · intro h
    have he := countWords_entries_eq_nil tokens h
    have hf : freqList tokens = [] := by
      unfold freqList
      rw [he]
      rfl
    exact ⟨he, hf, topWords_eq_empty S tokens hf⟩
  · intro hne
    by_contra hlt
    exact hne (countWords_entries_eq_nil tokens (by omega))

theorem getTopWords_no_division_by_zero_witness :
    (countWords ["--".toList, "!?".toList]).2 = 0 ∧
    (getTopWords freqSort "book.txt" (some ["--".toList, "!?".toList])).1 = StdMap.empty :=
  ⟨by decide,
    ((getTopWords_no_division_by_zero freqSort "book.txt" ["--".toList, "!?".toList]).1
      (by decide)).2.2⟩

theorem valueAt_nonneg (A : Profile) (hA : ∀ p ∈ A.entries, 0 ≤ p.2) (w : CString) :
    0 ≤ A.valueAt w := by
  unfold StdMap.valueAt
  cases hf : A.find w with
  | none => simp
  | some v =>
    have := hA (w, v) ((StdMap.find_eq_some_iff A w v).1 hf)
    simpa using this

/-- For profiles with non-negative values the score lies between 0 and the
sum of all values of both profiles. -/
theorem calculateSimilarity_le_sums (A B : Profile) (hA : ∀ p ∈ A.entries, 0 ≤ p.2)
    (hB : ∀ p ∈ B.entries, 0 ≤ p.2) :
    0 ≤ calculateSimilarity A B ∧
    calculateSimilarity A B ≤ (A.entries.map Prod.snd).sum + (B.entries.map Prod.snd).sum := by
  rw [calculateSimilarity_eq_sum, sum_values_eq A, sum_values_eq B]
  constructor
  · exact Finset.sum_nonneg
      (fun w _ => add_nonneg (valueAt_nonneg A hA w) (valueAt_nonneg B hB w))
  · rw [Finset.sum_add_distrib]
    exact add_le_add
      (Finset.sum_le_sum_of_subset_of_nonneg Finset.inter_subset_left
        (fun w _ _ => valueAt_nonneg A hA w))
      (Finset.sum_le_sum_of_subset_of_nonneg Finset.inter_subset_right
        (fun w _ _ => valueAt_nonneg B hB w))

theorem mem_indexPairs (numFiles i j : Nat) :
    (i, j) ∈ indexPairs numFiles ↔ i < j ∧ j < numFiles := by
  unfold indexPairs
  simp only [List.mem_flatMap, List.mem_range, List.mem_map, List.mem_range'_1, Prod.mk.injEq]
  constructor
  · rintro ⟨a, ha, b, hb, rfl, rfl⟩
    omega
  · rintro ⟨h1, h2⟩
    exact ⟨i, by omega, j, by omega, rfl, rfl⟩

theorem nodup_indexPairs (numFiles : Nat) : (indexPairs numFiles).Nodup := by
  unfold indexPairs
  rw [List.nodup_flatMap]
  constructor
  · intro i _
    refine (List.nodup_range' _ _).map ?_
    intro a b hab
    exact (Prod.mk.injEq _ _ _ _ ▸ hab : i = i ∧ a = b).2
  · refine (List.nodup_range numFiles).imp ?_
    intro a b hab
    simp only [Function.onFun]
    intro p hp1 hp2
    rcases List.mem_map.1 hp1 with ⟨x, _, rfl⟩
    rcases List.mem_map.1 hp2 with ⟨y, _, hy⟩
    exact hab (Prod.mk.injEq _ _ _ _ ▸ hy : b = a ∧ y = x).1.symm

theorem sum_range_sub (n : Nat) :
    ((List.range n).map (fun i => n - (i + 1))).sum = n * (n - 1) / 2 := by
  have h1 : ((List.range n).map (fun i => n - (i + 1))).sum
      = ∑ i ∈ Finset.range n, (n - 1 - i) := by
    rw [← List.sum_toFinset _ (List.nodup_range n)]
    have : (List.range n).toFinset = Finset.range n := by
      ext x; simp
    rw [this]
    exact Finset.sum_congr rfl (fun i _ => by omega)
  rw [h1, Finset.sum_range_reflect (fun i => i) n, Finset.sum_range_id]

theorem length_indexPairs (numFiles : Nat) :
    (indexPairs numFiles).length = numFiles * (numFiles - 1) / 2 := by
  unfold indexPairs
  rw [List.length_flatMap, ← sum_range_sub]
  congr 1
  apply List.map_congr_left
  intro i _
  simp only [Function.comp_apply, List.length_map, List.length_range']

/-- The vector `similarityValues` holds, for each visited index pair in turn,
the matrix cell of that pair with the pair. -/
theorem similarityValues_eq_map (M : List (List ℚ)) (numFiles : Nat) :
    similarityValues M numFiles =
      (indexPairs numFiles).map (fun p => (cell M p.1 p.2, p.1, p.2)) := by
  rw [similarityValues_eq_flatMap]
  unfold indexPairs
  rw [List.map_flatMap]
  congr 1
  funext i
  rw [List.map_map]
  rfl

/-- Two nested loops are one loop over the visited index pairs. -/
theorem foldl_nested {α : Type} (g : α → Nat → Nat → α) (js : Nat → List Nat)
    (is : List Nat) (init : α) :
    is.foldl (fun M i => (js i).foldl (fun M j => g M i j) M) init =
      (is.flatMap (fun i => (js i).map (fun j => (i, j)))).foldl
        (fun M p => g M p.1 p.2) init := by
  induction is generalizing init with
  | nil => rfl
  | cons i rest ih =>
    rw [List.foldl_cons, ih, List.flatMap_cons, List.foldl_append, List.foldl_map]

/-- The score that the first pair of nested loops stores for the pair `(i, j)`. -/
theorem similarityMatrix_eq_foldl (profiles : List Profile) (numFiles : Nat) :
    similarityMatrix profiles numFiles =
      (indexPairs numFiles).foldl
        (fun M p =>
          setCell
            (setCell M p.1 p.2
              (calculateSimilarity (profiles.getD p.1 StdMap.empty)
                (profiles.getD p.2 StdMap.empty)))
            p.2 p.1
            (calculateSimilarity (profiles.getD p.1 StdMap.empty)
              (profiles.getD p.2 StdMap.empty)))
        (List.replicate numFiles (List.replicate numFiles 0)) := by
  unfold similarityMatrix indexPairs
  exact foldl_nested
    (fun M i j =>
      setCell
        (setCell M i j
          (calculateSimilarity (profiles.getD i StdMap.empty) (profiles.getD j StdMap.empty)))
        j i
        (calculateSimilarity (profiles.getD i StdMap.empty) (profiles.getD j StdMap.empty)))
    (fun i => List.range' (i + 1) (numFiles - (i + 1))) (List.range numFiles) _

theorem length_setCell (M : List (List ℚ)) (i j : Nat) (v : ℚ) :
    (setCell M i j v).length = M.length := by
  unfold setCell
  rw [List.length_set]

theorem row_length_setCell (M : List (List ℚ)) (i j a : Nat) (v : ℚ) :
    ((setCell M i j v).getD a []).length = (M.getD a []).length := by
  unfold setCell
  simp only [List.getD_eq_getElem?_getD, List.getElem?_set]
  by_cases h : i = a
  · subst h
    by_cases h2 : i < M.length
    · simp [h2]
    · simp [h2, List.getElem?_eq_none (Nat.le_of_not_lt h2)]
  · simp [h]

/-- An assignment to one cell leaves every other cell as it was. -/
theorem cell_setCell_of_ne (M : List (List ℚ)) (i j a b : Nat) (v : ℚ)
    (h : ¬ (a = i ∧ b = j)) : cell (setCell M i j v) a b = cell M a b := by
  unfold cell setCell
  simp only [List.getD_eq_getElem?_getD, List.getElem?_set]
  by_cases h1 : i = a
  · subst h1
    have hb : ¬ j = b := fun hj => h ⟨rfl, hj.symm⟩
    by_cases h2 : i < M.length
    · simp [h2, List.getElem?_set, hb]
    · simp [h2, List.getElem?_eq_none (Nat.le_of_not_lt h2)]
  · simp [h1]

/-- A cell inside the matrix holds the value assigned to it. -/
theorem cell_setCell_self (M : List (List ℚ)) (i j : Nat) (v : ℚ)
    (hi : i < M.length) (hj : j < (M.getD i []).length) : cell (setCell M i j v) i j = v := by
  unfold cell setCell
  simp only [List.getD_eq_getElem?_getD, List.getElem?_set] at hj ⊢
  rw [List.getElem?_eq_getElem hi, Option.getD_some] at hj
  simp [hi, hj, List.getElem?_set]

/-- The loop over index pairs `(i, j)`, `i < j < n`, on an `n` by `n` matrix:
the matrix keeps its shape, and a cell above the diagonal holds the score of
its pair once the pair has been visited. -/
theorem foldl_setCell (s : Nat → Nat → ℚ) (n : Nat) (L : List (Nat × Nat))
    (hL : ∀ p ∈ L, p.1 < p.2 ∧ p.2 < n) (M : List (List ℚ))
    (hM : M.length = n ∧ ∀ a, a < n → (M.getD a []).length = n) :
    ((L.foldl (fun M p => setCell (setCell M p.1 p.2 (s p.1 p.2)) p.2 p.1 (s p.1 p.2)) M).length
        = n ∧
      ∀ a, a < n →
        ((L.foldl (fun M p => setCell (setCell M p.1 p.2 (s p.1 p.2)) p.2 p.1 (s p.1 p.2))
          M).getD a []).length = n) ∧
    ∀ a b, a < b →
      cell (L.foldl (fun M p => setCell (setCell M p.1 p.2 (s p.1 p.2)) p.2 p.1 (s p.1 p.2)) M)
          a b =
        if (a, b) ∈ L then s a b else cell M a b := by
  induction L generalizing M with
  | nil =>
    refine ⟨hM, ?_⟩
    intro a b _
    simp
  | cons p rest ih =>
    have hp := hL p (List.mem_cons_self _ _)
    have hM1 : (setCell (setCell M p.1 p.2 (s p.1 p.2)) p.2 p.1 (s p.1 p.2)).length = n ∧
        ∀ a, a < n →
          ((setCell (setCell M p.1 p.2 (s p.1 p.2)) p.2 p.1 (s p.1 p.2)).getD a []).length
            = n := by
      constructor
      · rw [length_setCell, length_setCell]; exact hM.1
      · intro a ha
        rw [row_length_setCell, row_length_setCell]; exact hM.2 a ha
    obtain ⟨i1, i2⟩ := ih (fun q hq => hL q (List.mem_cons_of_mem _ hq)) _ hM1
    rw [List.foldl_cons]
    refine ⟨i1, ?_⟩
    intro a b hab
    rw [i2 a b hab]
    by_cases hr : (a, b) ∈ rest
    · rw [if_pos hr, if_pos (List.mem_cons_of_mem _ hr)]
    · rw [if_neg hr]
      have h2 : cell (setCell (setCell M p.1 p.2 (s p.1 p.2)) p.2 p.1 (s p.1 p.2)) a b
          = cell (setCell M p.1 p.2 (s p.1 p.2)) a b := by
        apply cell_setCell_of_ne
        rintro ⟨h3, h4⟩
        omega
      rw [h2]
      by_cases hpe : (a, b) = p
      · rw [if_pos (hpe ▸ List.mem_cons_self _ _)]
        subst hpe
        exact cell_setCell_self M a b _ (by rw [hM.1]; omega)
          (by rw [hM.2 a (by omega)]; exact hp.2)
      · have hnm : (a, b) ∉ p :: rest := by
          intro hm
          rcases List.mem_cons.1 hm with hm | hm
          · exact hpe hm
          · exact hr hm
        rw [if_neg hnm]
        apply cell_setCell_of_ne
        rintro ⟨h3, h4⟩
        exact hpe (Prod.ext h3 h4)

/-- After the first pair of nested loops the cell `[i][j]`, `i < j < numFiles`,
holds `calculateSimilarity` of the profiles with indices `i` and `j`. -/
theorem cell_similarityMatrix (profiles : List Profile) (numFiles i j : Nat)
    (hij : i < j) (hj : j < numFiles) :
    cell (similarityMatrix profiles numFiles) i j =
      calculateSimilarity (profiles.getD i StdMap.empty) (profiles.getD j StdMap.empty) := by
  rw [similarityMatrix_eq_foldl]
  have h := (foldl_setCell
    (fun a b =>
      calculateSimilarity (profiles.getD a StdMap.empty) (profiles.getD b StdMap.empty))
    numFiles (indexPairs numFiles)
    (fun p hp => (mem_indexPairs numFiles p.1 p.2).1 hp)
    (List.replicate numFiles (List.replicate numFiles 0))
    ⟨List.length_replicate _ _, fun a ha => by
      simp [List.getD_eq_getElem?_getD, List.getElem?_replicate, ha]⟩).2 i j hij
  rw [h, if_pos ((mem_indexPairs numFiles i j).2 ⟨hij, hj⟩)]

theorem fileProfile_eq (S : StdSort (CString × ℚ) freqGreater)
    (disk : String → Option (List CString)) (files : List String) (k : Nat)
    (hk : k < files.length) :
    fileProfile S disk files k =
      (getTopWords S (files.getD k "") (disk (files.getD k ""))).1 := by
  unfold fileProfile fileFrequencies
  simp [List.getD_eq_getElem?_getD, List.getElem?_map, List.getElem?_eq_getElem hk]

/-- The entries of the vector of scored pairs. -/
theorem mem_scoredPairs (S : StdSort (CString × ℚ) freqGreater)
    (disk : String → Option (List CString)) (files : List String) (t : ℚ × Nat × Nat) :
    t ∈ scoredPairs S disk files ↔
      t.2.1 < t.2.2 ∧ t.2.2 < files.length ∧
      t.1 = calculateSimilarity (fileProfile S disk files t.2.1)
        (fileProfile S disk files t.2.2) := by
  unfold scoredPairs
  rw [similarityValues_eq_map, List.mem_map]
  constructor
  · rintro ⟨p, hp, rfl⟩
    have hp' := (mem_indexPairs files.length p.1 p.2).1 hp
    exact ⟨hp'.1, hp'.2, cell_similarityMatrix _ _ _ _ hp'.1 hp'.2⟩
  · rintro ⟨h1, h2, h3⟩
    refine ⟨(t.2.1, t.2.2), (mem_indexPairs _ _ _).2 ⟨h1, h2⟩, ?_⟩
    rw [cell_similarityMatrix _ _ _ _ h1 h2]
    exact Prod.ext h3.symm rfl

theorem scoredPairs_indices (S : StdSort (CString × ℚ) freqGreater)
    (disk : String → Option (List CString)) (files : List String) :
    (scoredPairs S disk files).map (fun t => (t.2.1, t.2.2)) = indexPairs files.length := by
  unfold scoredPairs
  rw [similarityValues_eq_map, List.map_map]
  exact List.map_id _

theorem rankedPairs_perm (S : StdSort (CString × ℚ) freqGreater)
    (T : StdSort (ℚ × Nat × Nat) tupleLess) (disk : String → Option (List CString))
    (files : List String) : (rankedPairs S T disk files).Perm (scoredPairs S disk files) :=
  sortDescending_perm T _

/-! ## Theorems: order of the ranking -/

theorem tupleLess_asymm (a b : ℚ × Nat × Nat) (h : tupleLess a b) : ¬ tupleLess b a := by
  rw [tupleLess_iff] at *
  exact lt_asymm h

theorem tupleLess_of_ne (a b : ℚ × Nat × Nat) (hne : a ≠ b) (h : ¬ tupleLess a b) :
    tupleLess b a := by
  unfold tupleLess at *
  rcases lt_trichotomy a.1 b.1 with h1 | h1 | h1
  · exact absurd (Or.inl h1) h
  · rcases lt_trichotomy a.2.1 b.2.1 with h2 | h2 | h2
    · exact absurd (Or.inr ⟨by rw [h1]; exact lt_irrefl _, Or.inl h2⟩) h
    · rcases lt_trichotomy a.2.2 b.2.2 with h3 | h3 | h3
      · exact absurd
          (Or.inr ⟨by rw [h1]; exact lt_irrefl _,
            Or.inr ⟨by rw [h2]; exact lt_irrefl _, h3⟩⟩) h
      · exact absurd (Prod.ext h1 (Prod.ext h2 h3)) hne
      · exact Or.inr ⟨by rw [h1]; exact lt_irrefl _,
          Or.inr ⟨by rw [h2]; exact lt_irrefl _, h3⟩⟩
    · exact Or.inr ⟨by rw [h1]; exact lt_irrefl _, Or.inl h2⟩
  · exact Or.inl h1

/-- With equal scores, `operator<` compares the index pairs. -/
theorem tupleLess_of_score_eq (a b : ℚ × Nat × Nat) (h : a.1 = b.1) :
    tupleLess a b ↔ a.2.1 < b.2.1 ∨ (a.2.1 = b.2.1 ∧ a.2.2 < b.2.2) := by
  unfold tupleLess
  rw [h]
  simp only [lt_irrefl, false_or, not_false_eq_true, true_and, not_lt]
  constructor
  · rintro (h1 | ⟨h1, h2⟩)
    · exact Or.inl h1
    · rcases lt_or_eq_of_le h1 with h3 | h3
      · exact Or.inl h3
      · exact Or.inr ⟨h3, h2⟩
  · rintro (h1 | ⟨h1, h2⟩)
    · exact Or.inl h1
    · exact Or.inr ⟨le_of_eq h1, h2⟩

theorem scoredPairs_nodup (S : StdSort (CString × ℚ) freqGreater)
    (disk : String → Option (List CString)) (files : List String) :
    (scoredPairs S disk files).Nodup := by
  apply List.Nodup.of_map (fun t => (t.2.1, t.2.2))
  rw [scoredPairs_indices]
  exact nodup_indexPairs _

/-- The ranking is strictly descending for `operator<` of the tuples. -/
theorem rankedPairs_pairwise_tupleLess (S : StdSort (CString × ℚ) freqGreater)
    (T : StdSort (ℚ × Nat × Nat) tupleLess) (disk : String → Option (List CString))
    (files : List String) :
    (rankedPairs S T disk files).Pairwise (fun a b => tupleLess b a) := by
  have hnd : (rankedPairs S T disk files).Nodup :=
    (rankedPairs_perm S T disk files).nodup_iff.2 (scoredPairs_nodup S disk files)
  have hs : (rankedPairs S T disk files).Pairwise (fun a b => ¬ tupleLess a b) :=
    sortDescending_sorted T _
  exact (hnd.and hs).imp (fun h => tupleLess_of_ne _ _ h.1 h.2)

/-- In a list ordered pairwise by an asymmetric relation, of two members
related by it the first stands before the second. -/
theorem sublist_pair_of_pairwise {α : Type} (R : α → α → Prop) (l : List α)
    (hl : l.Pairwise R) (a b : α) (ha : a ∈ l) (hb : b ∈ l) (hab : R a b)
    (hasymm : ∀ x y, R x y → ¬ R y x) : [a, b].Sublist l := by
  induction l with
  | nil => exact absurd ha (List.not_mem_nil a)
  | cons c rest ih =>
    have hc := List.pairwise_cons.1 hl
    have hne : a ≠ b := fun h => hasymm a b hab (h ▸ hab)
    rcases List.mem_cons.1 ha with ha | ha
    · rcases List.mem_cons.1 hb with hb | hb
      · exact absurd (ha.trans hb.symm) hne
      · rw [ha]
        exact (List.singleton_sublist.2 hb).cons₂ c
    · rcases List.mem_cons.1 hb with hb | hb
      · exact absurd (hb ▸ hc.1 a ha) (hasymm a b hab)
      · exact (ih hc.2 ha hb).cons c

/-- Of two entries of the ranking, the greater tuple stands first. -/
theorem rankedPairs_before (S : StdSort (CString × ℚ) freqGreater)
    (T : StdSort (ℚ × Nat × Nat) tupleLess) (disk : String → Option (List CString))
    (files : List String) (x y : ℚ × Nat × Nat) (hx : x ∈ rankedPairs S T disk files)
    (hy : y ∈ rankedPairs S T disk files) (h : tupleLess y x) :
    [x, y].Sublist (rankedPairs S T disk files) ∧
    ¬ [y, x].Sublist (rankedPairs S T disk files) := by
  have hp := rankedPairs_pairwise_tupleLess S T disk files
  constructor
  · exact sublist_pair_of_pairwise (fun a b => tupleLess b a) _ hp x y hx hy h
      (fun a b hab => tupleLess_asymm b a hab)
  · intro hsub
    have := List.pairwise_iff_forall_sublist.1 hp hsub
    exact tupleLess_asymm y x h this

/-- C12: the ranking is the list of `(score, i, j)` triples in strictly
descending lexicographic order; so of two pairs with equal scores the one with
the lexicographically greater index pair stands first. -/
theorem rankedPairs_strictly_descending (S : StdSort (CString × ℚ) freqGreater)
    (T : StdSort (ℚ × Nat × Nat) tupleLess) (disk : String → Option (List CString))
    (files : List String) :
    (rankedPairs S T disk files).Perm (scoredPairs S disk files) ∧
    (rankedPairs S T disk files).Pairwise (fun a b => tupleLess b a) ∧
    (rankedPairs S T disk files).Pairwise
      (fun a b => a.1 = b.1 → b.2.1 < a.2.1 ∨ (b.2.1 = a.2.1 ∧ b.2.2 < a.2.2)) := by
  refine ⟨rankedPairs_perm S T disk files, rankedPairs_pairwise_tupleLess S T disk files, ?_⟩
  refine (rankedPairs_pairwise_tupleLess S T disk files).imp ?_
  intro a b hba heq
  exact (tupleLess_of_score_eq b a heq.symm).1 hba

theorem rankedPairs_strictly_descending_witness :
    (rankedPairs freqSort tupleSort emptyFilesDisk sampleFiles).Pairwise
      (fun a b => a.1 = b.1 → b.2.1 < a.2.1 ∨ (b.2.1 = a.2.1 ∧ b.2.2 < a.2.2)) :=
  (rankedPairs_strictly_descending freqSort tupleSort emptyFilesDisk sampleFiles).2.2

/-- On the corpus of 64 empty files every pair is scored 0. -/
theorem mem_rankedPairs_emptyFiles (i j : Nat) (hij : i < j) (hj : j < 64) :
    ((0 : ℚ), i, j) ∈ rankedPairs freqSort tupleSort emptyFilesDisk sampleFiles := by
  rw [(rankedPairs_perm _ _ _ _).mem_iff, mem_scoredPairs]
  have hlen : sampleFiles.length = 64 := by decide
  refine ⟨hij, by rw [hlen]; exact hj, ?_⟩
  rw [fileProfile_eq _ _ _ i (by rw [hlen]; omega), fileProfile_eq _ _ _ j (by rw [hlen]; omega)]
  rfl

/-- C13, counterexample: on a corpus of 64 empty files all pairs score 0, and
the pair `(0, 2)` is ranked before the pair `(0, 1)`, not after it: among equal
scores the lexicographically smaller index pair is not ranked first. -/
theorem rankedPairs_ties_not_ascending :
    [((0 : ℚ), 0, 2), ((0 : ℚ), 0, 1)].Sublist
      (rankedPairs freqSort tupleSort emptyFilesDisk sampleFiles) ∧
    ¬ [((0 : ℚ), 0, 1), ((0 : ℚ), 0, 2)].Sublist
      (rankedPairs freqSort tupleSort emptyFilesDisk sampleFiles) :=
  rankedPairs_before freqSort tupleSort emptyFilesDisk sampleFiles (0, 0, 2) (0, 0, 1)
    (mem_rankedPairs_emptyFiles 0 2 (by decide) (by decide))
    (mem_rankedPairs_emptyFiles 0 1 (by decide) (by decide))
    ((tupleLess_of_score_eq (0, 0, 1) (0, 0, 2) rfl).2 (Or.inr ⟨rfl, by decide⟩))

/-- C13 as amended: among pairs with equal scores, the pair with the
lexicographically greater index pair is ranked before the pair with the
smaller one. -/
theorem rankedPairs_ties_greater_first (S : StdSort (CString × ℚ) freqGreater)
    (T : StdSort (ℚ × Nat × Nat) tupleLess) (disk : String → Option (List CString))
    (files : List String) (x y : ℚ × Nat × Nat) (hx : x ∈ rankedPairs S T disk files)
    (hy : y ∈ rankedPairs S T disk files) (hscore : x.1 = y.1)
    (hidx : y.2.1 < x.2.1 ∨ (y.2.1 = x.2.1 ∧ y.2.2 < x.2.2)) :
    [x, y].Sublist (rankedPairs S T disk files) ∧
    ¬ [y, x].Sublist (rankedPairs S T disk files) :=
  rankedPairs_before S T disk files x y hx hy
    ((tupleLess_of_score_eq y x hscore.symm).2 hidx)

theorem rankedPairs_ties_greater_first_witness :
    ((0 : ℚ), 5, 9) ∈ rankedPairs freqSort tupleSort emptyFilesDisk sampleFiles ∧
    ((0 : ℚ), 3, 60) ∈ rankedPairs freqSort tupleSort emptyFilesDisk sampleFiles ∧
    [((0 : ℚ), 5, 9), ((0 : ℚ), 3, 60)].Sublist
      (rankedPairs freqSort tupleSort emptyFilesDisk sampleFiles) :=
  ⟨mem_rankedPairs_emptyFiles 5 9 (by decide) (by decide),
    mem_rankedPairs_emptyFiles 3 60 (by decide) (by decide),
    (rankedPairs_ties_greater_first freqSort tupleSort emptyFilesDisk sampleFiles
      (0, 5, 9) (0, 3, 60)
      (mem_rankedPairs_emptyFiles 5 9 (by decide) (by decide))
      (mem_rankedPairs_emptyFiles 3 60 (by decide) (by decide))
      rfl (Or.inl (by decide))).1⟩

/-- C14: the vector of scored pairs has exactly one entry for each index pair
`(i, j)` with `i < j < n` and no other entry, hence `n (n - 1) / 2` entries
(2016 for 64 files); the score of an entry is `calculateSimilarity` of the
profiles of the files `i` and `j`; the ranking rearranges this vector. -/
theorem scoredPairs_exactly_once (S : StdSort (CString × ℚ) freqGreater)
    (T : StdSort (ℚ × Nat × Nat) tupleLess) (disk : String → Option (List CString))
    (files : List String) :
    ((scoredPairs S disk files).map (fun t => (t.2.1, t.2.2))).Nodup ∧
    (∀ i j, (i, j) ∈ (scoredPairs S disk files).map (fun t => (t.2.1, t.2.2)) ↔
      i < j ∧ j < files.length) ∧
    (scoredPairs S disk files).length = files.length * (files.length - 1) / 2 ∧
    (files.length = 64 → (scoredPairs S disk files).length = 2016) ∧
    (∀ t ∈ scoredPairs S disk files,
      t.1 = calculateSimilarity (fileProfile S disk files t.2.1)
        (fileProfile S disk files t.2.2)) ∧
    (∀ k, k < files.length →
      fileProfile S disk files k =
        (getTopWords S (files.getD k "") (disk (files.getD k ""))).1) ∧
    (rankedPairs S T disk files).Perm (scoredPairs S disk files) := by
  have hlen : (scoredPairs S disk files).length = files.length * (files.length - 1) / 2 := by
    rw [← length_indexPairs, ← scoredPairs_indices S disk files, List.length_map]
  refine ⟨?_, ?_, hlen, ?_, ?_, ?_, rankedPairs_perm S T disk files⟩
  · rw [scoredPairs_indices]
    exact nodup_indexPairs _
  · intro i j
    rw [scoredPairs_indices]
    exact mem_indexPairs _ i j
  · intro h
    rw [hlen, h]
  · intro t ht
    exact ((mem_scoredPairs S disk files t).1 ht).2.2
  · intro k hk
    exact fileProfile_eq S disk files k hk

theorem scoredPairs_exactly_once_witness :
    sampleFiles.length = 64 ∧ (scoredPairs freqSort emptyFilesDisk sampleFiles).length = 2016 :=
  ⟨by decide,
    (scoredPairs_exactly_once freqSort tupleSort emptyFilesDisk sampleFiles).2.2.2.1
      (by decide)⟩

/-! ## Theorems: unreadable files and the identical pair -/

theorem calculateSimilarity_empty_left (P : Profile) :
    calculateSimilarity StdMap.empty P = 0 := rfl

theorem calculateSimilarity_empty_right (P : Profile) :
    calculateSimilarity P StdMap.empty = 0 := by
  rw [calculateSimilarity_eq_sum]
  have h : (StdMap.empty : Profile).keys.toFinset = ∅ := rfl
  rw [h, Finset.inter_empty, Finset.sum_empty]

/-- Profiles without a common key score 0. -/
theorem calculateSimilarity_eq_zero_of_disjoint (A B : Profile)
    (h : ∀ w, w ∈ A.keys → w ∉ B.keys) : calculateSimilarity A B = 0 := by
  rw [calculateSimilarity_eq_sum]
  have : A.keys.toFinset ∩ B.keys.toFinset = ∅ := by
    ext w
    simp only [Finset.mem_inter, List.mem_toFinset, Finset.not_mem_empty, iff_false, not_and]
    exact h w
  rw [this, Finset.sum_empty]

theorem mem_rankedPairs (S : StdSort (CString × ℚ) freqGreater)
    (T : StdSort (ℚ × Nat × Nat) tupleLess) (disk : String → Option (List CString))
    (files : List String) (t : ℚ × Nat × Nat) :
    t ∈ rankedPairs S T disk files ↔
      t.2.1 < t.2.2 ∧ t.2.2 < files.length ∧
      t.1 = calculateSimilarity (fileProfile S disk files t.2.1)
        (fileProfile S disk files t.2.2) := by
  rw [(rankedPairs_perm S T disk files).mem_iff]
  exact mem_scoredPairs S disk files t

/-- C15: a file that cannot be opened makes `getTopWords` return the empty
profile, after the diagnostic `Error: Could not open file <path>`; the empty
profile scores 0 against every profile, on either side; so every pair of the
ranking that contains an unreadable file has score 0. -/
theorem getTopWords_unreadable_file (S : StdSort (CString × ℚ) freqGreater)
    (T : StdSort (ℚ × Nat × Nat) tupleLess) (disk : String → Option (List CString))
    (files : List String) (k : Nat) (P : Profile) (filePath : String)
    (hk : k < files.length) (hnone : disk (files.getD k "") = none) :
    getTopWords S filePath none =
        (StdMap.empty, "Error: Could not open file " ++ filePath ++ "\n") ∧
    calculateSimilarity StdMap.empty P = 0 ∧
    calculateSimilarity P StdMap.empty = 0 ∧
    fileProfile S disk files k = StdMap.empty ∧
    ∀ t ∈ rankedPairs S T disk files, (t.2.1 = k ∨ t.2.2 = k) → t.1 = 0 := by
  have hprof : fileProfile S disk files k = StdMap.empty := by
    rw [fileProfile_eq S disk files k hk, hnone]
    rfl
  refine ⟨rfl, calculateSimilarity_empty_left P, calculateSimilarity_empty_right P, hprof, ?_⟩
  intro t ht hor
  rw [((mem_rankedPairs S T disk files t).1 ht).2.2]
  rcases hor with h | h
  · rw [h, hprof]
    exact calculateSimilarity_empty_left _
  · rw [h, hprof]
    exact calculateSimilarity_empty_right _

theorem getTopWords_unreadable_file_witness :
    0 < sampleFiles.length ∧ unreadableDisk (sampleFiles.getD 0 "") = none ∧
    fileProfile freqSort unreadableDisk sampleFiles 0 = StdMap.empty :=
  ⟨by decide, rfl,
    (getTopWords_unreadable_file freqSort tupleSort unreadableDisk sampleFiles 0 profileBird
      "book.txt" (by decide) rfl).2.2.2.1⟩

/-- The profile of a file depends on its content only. -/
theorem getTopWords_profile_path (S : StdSort (CString × ℚ) freqGreater)
    (pathA pathB : String) (file : Option (List CString)) :
    (getTopWords S pathA file).1 = (getTopWords S pathB file).1 := by
  cases file <;> rfl

theorem fileProfile_nonneg (S : StdSort (CString × ℚ) freqGreater)
    (disk : String → Option (List CString)) (files : List String) (k : Nat) :
    ∀ p ∈ (fileProfile S disk files k).entries, 0 ≤ p.2 := by
  by_cases hk : k < files.length
  · rw [fileProfile_eq S disk files k hk]
    exact (getTopWords_nonneg_sum_le_one S _ _).1
  · intro p hp
    have : fileProfile S disk files k = StdMap.empty := by
      unfold fileProfile fileFrequencies
      simp [List.getD_eq_getElem?_getD, List.getElem?_eq_none (Nat.le_of_not_lt hk)]
    rw [this] at hp
    exact absurd hp (List.not_mem_nil p)

/-- C16: in a corpus of 64 files where the files `p` and `q` have identical
content and no other pair of files has a profile word in common, the two files
have the same profile, their pair is in the ranking, its score (twice the sum
of the frequencies of the common profile) is at least the score of every pair
of the ranking, and it equals the score of the first-ranked pair. -/
theorem identical_pair_ranks_first (S : StdSort (CString × ℚ) freqGreater)
    (T : StdSort (ℚ × Nat × Nat) tupleLess) (disk : String → Option (List CString))
    (files : List String) (p q : Nat) (hlen : files.length = 64) (hpq : p < q) (hq : q < 64)
    (hsame : disk (files.getD p "") = disk (files.getD q ""))
    (hdisj : ∀ i j, i < j → j < 64 → (i, j) ≠ (p, q) →
      ∀ w, w ∈ (fileProfile S disk files i).keys → w ∉ (fileProfile S disk files j).keys) :
    fileProfile S disk files p = fileProfile S disk files q ∧
    calculateSimilarity (fileProfile S disk files p) (fileProfile S disk files q) =
      2 * ((fileProfile S disk files p).entries.map Prod.snd).sum ∧
    (calculateSimilarity (fileProfile S disk files p) (fileProfile S disk files q), p, q) ∈
      rankedPairs S T disk files ∧
    (∀ t ∈ rankedPairs S T disk files,
      t.1 ≤ calculateSimilarity (fileProfile S disk files p) (fileProfile S disk files q)) ∧
    ∃ first, (rankedPairs S T disk files).head? = some first ∧
      first.1 = calculateSimilarity (fileProfile S disk files p) (fileProfile S disk files q) := by
  have hprof : fileProfile S disk files p = fileProfile S disk files q := by
    rw [fileProfile_eq S disk files p (by omega), fileProfile_eq S disk files q (by omega), hsame]
    exact getTopWords_profile_path S _ _ _
  have hnonneg : 0 ≤ calculateSimilarity (fileProfile S disk files p)
      (fileProfile S disk files q) :=
    (calculateSimilarity_le_sums _ _ (fileProfile_nonneg S disk files p)
      (fileProfile_nonneg S disk files q)).1
  have hmem : (calculateSimilarity (fileProfile S disk files p) (fileProfile S disk files q),
      p, q) ∈ rankedPairs S T disk files :=
    (mem_rankedPairs S T disk files _).2 ⟨hpq, by rw [hlen]; exact hq, rfl⟩
  have hle : ∀ t ∈ rankedPairs S T disk files,
      t.1 ≤ calculateSimilarity (fileProfile S disk files p) (fileProfile S disk files q) := by
    intro t ht
    obtain ⟨h1, h2, h3⟩ := (mem_rankedPairs S T disk files t).1 ht
    by_cases hidx : (t.2.1, t.2.2) = (p, q)
    · have h4 : t.2.1 = p := congrArg Prod.fst hidx
      have h5 : t.2.2 = q := congrArg Prod.snd hidx
      rw [h3, h4, h5]
    · rw [h3, calculateSimilarity_eq_zero_of_disjoint _ _
        (hdisj t.2.1 t.2.2 h1 (by rw [← hlen]; exact h2) hidx)]
      exact hnonneg
  refine ⟨hprof, ?_, hmem, hle, ?_⟩
  · rw [← hprof, calculateSimilarity_eq_sum, sum_values_eq, Finset.inter_self, Finset.mul_sum]
    exact Finset.sum_congr rfl (fun w _ => (two_mul _).symm)
  · cases hr : rankedPairs S T disk files with
    | nil =>
      rw [hr] at hmem
      exact absurd hmem (List.not_mem_nil _)
    | cons first rest =>
      refine ⟨first, rfl, le_antisymm ?_ ?_⟩
      · exact hle first (by rw [hr]; exact List.mem_cons_self _ _)
      · have hsorted : (rankedPairs S T disk files).Pairwise (fun a b => b.1 ≤ a.1) :=
          (sortDescending_sorted T _).imp (fun hab => score_le_of_not_tupleLess _ _ hab)
        rw [hr] at hsorted hmem
        rcases List.mem_cons.1 hmem with h | h
        · rw [← h]
        · exact (List.pairwise_cons.1 hsorted).1 _ h

theorem twinFiles_getD (j : Nat) (h2 : 2 ≤ j) (hj : j < 64) :
    twinFiles.getD j "" = "filler.txt" := by
  obtain ⟨m, rfl⟩ : ∃ m, j = m + 2 := ⟨j - 2, by omega⟩
  unfold twinFiles
  simp only [List.getD_eq_getElem?_getD, List.getElem?_cons_succ, List.getElem?_replicate]
  rw [if_pos (by omega)]
  rfl

theorem identical_pair_ranks_first_witness :
    twinFiles.length = 64 ∧
    twinDisk (twinFiles.getD 0 "") = twinDisk (twinFiles.getD 1 "") ∧
    (∀ i j, i < j → j < 64 → (i, j) ≠ (0, 1) →
      ∀ w, w ∈ (fileProfile freqSort twinDisk twinFiles i).keys →
        w ∉ (fileProfile freqSort twinDisk twinFiles j).keys) ∧
    ∃ first, (rankedPairs freqSort tupleSort twinDisk twinFiles).head? = some first ∧
      first.1 = calculateSimilarity (fileProfile freqSort twinDisk twinFiles 0)
        (fileProfile freqSort twinDisk twinFiles 1) :=
  have hdisj : ∀ i j, i < j → j < 64 → (i, j) ≠ (0, 1) →
      ∀ w, w ∈ (fileProfile freqSort twinDisk twinFiles i).keys →
        w ∉ (fileProfile freqSort twinDisk twinFiles j).keys := by
    intro i j hij hj hne w _ hw
    have h2 : 2 ≤ j := by
      by_contra hlt
      have hj1 : j = 1 := by omega
      have hi0 : i = 0 := by omega
      exact hne (by rw [hi0, hj1])
    have hempty : fileProfile freqSort twinDisk twinFiles j = StdMap.empty := by
      rw [fileProfile_eq _ _ _ j (by
        have : twinFiles.length = 64 := by decide
        omega), twinFiles_getD j h2 hj]
      rfl
    rw [hempty] at hw
    exact absurd hw (List.not_mem_nil w)
  ⟨by decide, by decide, hdisj,
    (identical_pair_ranks_first freqSort tupleSort twinDisk twinFiles 0 1 (by decide)
      (by decide) (by decide) (by decide) hdisj).2.2.2.2⟩

/-! ## Theorems: the score in `double` arithmetic -/

/-- The profile of a file depends on its content only, also in `double`
arithmetic. -/
theorem getTopWordsDouble_path (S : StdSort (CString × Binary64) freqGreaterDouble)
    (pathA pathB : String) (file : Option (List CString)) :
    (getTopWordsDouble S pathA file).1 = (getTopWordsDouble S pathB file).1 := by
  cases file <;> rfl

theorem divNat_one_nine : Binary64.divNat 1 9 = ⟨8006399337547548, -56⟩ := by
  decide

/-- The index pairs are visited in ascending lexicographic order. -/
theorem indexPairs_sorted (numFiles : Nat) :
    (indexPairs numFiles).Pairwise (fun p q => p.1 < q.1 ∨ (p.1 = q.1 ∧ p.2 < q.2)) := by
  unfold indexPairs
  rw [List.pairwise_flatMap]
  constructor
  · intro i _
    rw [List.pairwise_map]
    exact (List.pairwise_lt_range' (i + 1) (numFiles - (i + 1))).imp
      (fun hab => Or.inr ⟨rfl, hab⟩)
  · refine (List.pairwise_lt_range numFiles).imp ?_
    intro a b hab x hx y hy
    rcases List.mem_map.1 hx with ⟨u, _, rfl⟩
    rcases List.mem_map.1 hy with ⟨v, _, rfl⟩
    exact Or.inl hab

/-- The vector of scored pairs, entry by entry. -/
theorem scoredPairs_eq_map (S : StdSort (CString × ℚ) freqGreater)
    (disk : String → Option (List CString)) (files : List String) :
    scoredPairs S disk files =
      (indexPairs files.length).map
        (fun p =>
          (calculateSimilarity (fileProfile S disk files p.1) (fileProfile S disk files p.2),
            p.1, p.2)) := by
  unfold scoredPairs
  rw [similarityValues_eq_map]
  apply List.map_congr_left
  intro p hp
  have hp' := (mem_indexPairs files.length p.1 p.2).1 hp
  rw [cell_similarityMatrix _ _ _ _ hp'.1 hp'.2]
  rfl

/-- A strictly descending rearrangement of a strictly ascending vector of
tuples is that vector reversed. -/
theorem eq_reverse_of_descending (R V : List (ℚ × Nat × Nat)) (hperm : R.Perm V)
    (hR : R.Pairwise (fun a b => tupleLess b a)) (hV : V.Pairwise (fun a b => tupleLess a b)) :
    R = V.reverse := by
  haveI : IsAntisymm (ℚ × Nat × Nat) (fun a b => tupleLess b a) :=
    ⟨fun a b hab hba => absurd hba (tupleLess_asymm b a hab)⟩
  exact List.eq_of_perm_of_sorted (hperm.trans (List.reverse_perm V).symm) hR
    (List.pairwise_reverse.2 hV)

/-- On a corpus of empty files every pair scores 0, so the ranking lists the
index pairs from the greatest to the least. -/
theorem rankedPairs_emptyFiles (files : List String) :
    rankedPairs freqSort tupleSort emptyFilesDisk files =
      ((indexPairs files.length).map (fun p => ((0 : ℚ), p.1, p.2))).reverse := by
  have hscored : scoredPairs freqSort emptyFilesDisk files =
      (indexPairs files.length).map (fun p => ((0 : ℚ), p.1, p.2)) := by
    rw [scoredPairs_eq_map]
    apply List.map_congr_left
    intro p hp
    have hp' := (mem_indexPairs files.length p.1 p.2).1 hp
    rw [fileProfile_eq _ _ _ p.1 (by omega)]
    rfl
  apply eq_reverse_of_descending
  · rw [← hscored]
    exact rankedPairs_perm _ _ _ _
  · exact rankedPairs_pairwise_tupleLess _ _ _ _
  · rw [List.pairwise_map]
    refine (indexPairs_sorted files.length).imp ?_
    intro a b hab
    exact (tupleLess_of_score_eq (0, a.1, a.2) (0, b.1, b.2) rfl).2 hab

set_option maxRecDepth 100000 in
theorem indexPairs_last_ten :
    ((indexPairs 64).reverse).take 10 =
      [(62, 63), (61, 63), (61, 62), (60, 63), (60, 62), (60, 61), (59, 63), (59, 62),
        (59, 61), (59, 60)] := by
  decide

/-- The ten pairs reported for 64 empty files. -/
theorem reported_shelf_emptyFiles :
    (rankedPairs freqSort tupleSort emptyFilesDisk shelfFiles).take 10 =
      [((0 : ℚ), 62, 63), (0, 61, 63), (0, 61, 62), (0, 60, 63), (0, 60, 62), (0, 60, 61),
        (0, 59, 63), (0, 59, 62), (0, 59, 61), (0, 59, 60)] := by
  have hlen : shelfFiles.length = 64 := by decide
  rw [rankedPairs_emptyFiles, hlen, ← List.map_reverse, ← List.map_take, indexPairs_last_ten]
  rfl

/-- C10: for a list of exactly 64 files, `findTopSimilarPairs` writes to `cout`
the header line followed by exactly 10 lines, the k-th of which names, between
quotes and joined by `and`, the base names of the two files of the k-th element
of the sorted vector of all 2016 scored pairs; the scores along that vector are
non-increasing, so the reported scores are non-increasing and no pair left out
has a score above a reported one. -/
theorem findTopSimilarPairs_reports_top_ten (S : StdSort (CString × ℚ) freqGreater)
    (T : StdSort (ℚ × Nat × Nat) tupleLess) (disk : String → Option (List CString))
    (files : List String) (h : files.length = 64) :
    (findTopSimilarPairs S T disk files).1 =
        "Top 10 similar pairs of books:\n" ++
          String.join (((rankedPairs S T disk files).take 10).map
            (fun t => "\"" ++ filename (files.getD t.2.1 "") ++ "\" and \"" ++
              filename (files.getD t.2.2 "") ++ "\"\n")) ∧
    ((rankedPairs S T disk files).take 10).length = 10 ∧
    (∀ t ∈ (rankedPairs S T disk files).take 10, t.2.1 < t.2.2 ∧ t.2.2 < 64) ∧
    (reportedPairs S T disk files).length = 10 ∧
    reportedPairs S T disk files = (rankedPairs S T disk files).take 10 ∧
    (rankedPairs S T disk files).length = 2016 ∧
    (rankedPairs S T disk files).Perm
      (similarityValues
        (similarityMatrix ((fileFrequencies S disk files).map Prod.fst) files.length)
        files.length) ∧
    (rankedPairs S T disk files).Pairwise (fun a b => b.1 ≤ a.1) ∧
    ∀ r ∈ reportedPairs S T disk files, ∀ u ∈ (rankedPairs S T disk files).drop 10,
      u.1 ≤ r.1 := by
  have hperm : (rankedPairs S T disk files).Perm
      (similarityValues
        (similarityMatrix ((fileFrequencies S disk files).map Prod.fst) files.length)
        files.length) := sortDescending_perm T _
  have hlen : (rankedPairs S T disk files).length = 2016 := by
    rw [hperm.length_eq, similarityValues_length, h]
    decide
  have hsorted : (rankedPairs S T disk files).Pairwise (fun a b => b.1 ≤ a.1) :=
    (sortDescending_sorted T _).imp (fun hab => score_le_of_not_tupleLess _ _ hab)
  have hten : ((rankedPairs S T disk files).take 10).length = 10 := by
    rw [List.length_take, hlen]
    rfl
  refine ⟨?_, hten, ?_, hten, rfl, hlen, hperm, hsorted, ?_⟩
  · unfold findTopSimilarPairs
    have hn : ¬ files.length ≠ TOTAL_TEXT_BOOKS := by
      rw [h]; decide
    simp only [if_neg hn]
    rfl
  · intro t ht
    have hmem := (mem_rankedPairs S T disk files t).1 (List.mem_of_mem_take ht)
    exact ⟨hmem.1, by rw [← h]; exact hmem.2.1⟩
  · intro r hr u hu
    have hs := hsorted
    rw [← List.take_append_drop 10 (rankedPairs S T disk files)] at hs
    exact (List.pairwise_append.1 hs).2.2 r hr u hu

set_option maxRecDepth 100000 in
theorem findTopSimilarPairs_reports_top_ten_witness :
    shelfFiles.length = 64 ∧
    (findTopSimilarPairs freqSort tupleSort emptyFilesDisk shelfFiles).1 =
      "Top 10 similar pairs of books:\n" ++
      "\"62.txt\" and \"63.txt\"\n" ++ "\"61.txt\" and \"63.txt\"\n" ++
      "\"61.txt\" and \"62.txt\"\n" ++ "\"60.txt\" and \"63.txt\"\n" ++
      "\"60.txt\" and \"62.txt\"\n" ++ "\"60.txt\" and \"61.txt\"\n" ++
      "\"59.txt\" and \"63.txt\"\n" ++ "\"59.txt\" and \"62.txt\"\n" ++
      "\"59.txt\" and \"61.txt\"\n" ++ "\"59.txt\" and \"60.txt\"\n" :=
  ⟨by decide,
    ((findTopSimilarPairs_reports_top_ten freqSort tupleSort emptyFilesDisk shelfFiles
      (by decide)).1).trans (by rw [reported_shelf_emptyFiles]; decide)⟩

/-! ## Theorems: the rounding of `double` arithmetic -/

theorem bitLengthAux_zero (fuel : Nat) : bitLengthAux fuel 0 = 0 := by
  cases fuel <;> simp [bitLengthAux]

/-- A positive number of `b` binary digits lies between `2 ^ (b - 1)` and `2 ^ b`. -/
theorem bitLengthAux_spec (fuel n : Nat) (h : n ≤ fuel) :
    n < 2 ^ bitLengthAux fuel n ∧ (0 < n → 2 ^ (bitLengthAux fuel n - 1) ≤ n) := by
  induction fuel generalizing n with
  | zero =>
    have hn : n = 0 := by omega
    subst hn
    simp [bitLengthAux]
  | succ fuel ih =>
    by_cases hn : n = 0
    · subst hn
      simp [bitLengthAux]
    · simp only [bitLengthAux, if_neg hn]
      obtain ⟨i1, i2⟩ := ih (n / 2) (by omega)
      constructor
      · rw [pow_succ]
        omega
      · intro _
        rw [Nat.add_sub_cancel]
        by_cases h2 : n / 2 = 0
        · rw [h2, bitLengthAux_zero]
          simp
          omega
        · have hpos : 0 < n / 2 := Nat.pos_of_ne_zero h2
          have hb : 1 ≤ bitLengthAux fuel (n / 2) := by
            by_contra hlt
            have hz : bitLengthAux fuel (n / 2) = 0 := by omega
            rw [hz] at i1
            simp at i1
            omega
          have h3 := i2 hpos
          have h4 : 2 ^ bitLengthAux fuel (n / 2) = 2 * 2 ^ (bitLengthAux fuel (n / 2) - 1) := by
            rw [← pow_succ']
            congr 1
            omega
          omega

theorem bitLength_spec (n : Nat) :
    n < 2 ^ bitLength n ∧ (0 < n → 2 ^ (bitLength n - 1) ≤ n) :=
  bitLengthAux_spec n n (Nat.le_refl n)

/-- The rounding keeps at most 53 significant bits and moves the value by at most
half a unit in the last place of the result. -/
theorem roundNearestEven_spec (m : Nat) (e : Int) :
    (roundNearestEven m e).mant ≤ 2 ^ 53 ∧
    |(roundNearestEven m e).toRat - (m : ℚ) * (2 : ℚ) ^ e| * 2 ≤
      (2 : ℚ) ^ (roundNearestEven m e).exp ∧
    (m < 2 ^ 53 → roundNearestEven m e = ⟨m, e⟩) := by
  by_cases hm : m < 2 ^ 53
  · have hr : roundNearestEven m e = ⟨m, e⟩ := by
      unfold roundNearestEven
      rw [if_pos hm]
    rw [hr]
    refine ⟨le_of_lt hm, ?_, fun _ => rfl⟩
    simp only [Binary64.toRat, sub_self, abs_zero, zero_mul]
    positivity
  · have hbits := bitLength_spec m
    have hmpos : 0 < m := by
      have : 0 < 2 ^ 53 := by positivity
      omega
    have hge : 54 ≤ bitLength m := by
      by_contra hlt
      have h1 : bitLength m ≤ 53 := by omega
      have h2 : 2 ^ bitLength m ≤ 2 ^ 53 := Nat.pow_le_pow_right (by norm_num) h1
      omega
    obtain ⟨k, hk⟩ : ∃ k, bitLength m = k + 54 := ⟨bitLength m - 54, by omega⟩
    have hk1 : bitLength m - 53 = k + 1 := by omega
    have hpow : 2 ^ bitLength m = 2 ^ (k + 1) * 2 ^ 53 := by
      rw [hk, ← pow_add]
    have hdm := Nat.div_add_mod m (2 ^ (k + 1))
    have hmod : m % 2 ^ (k + 1) < 2 ^ (k + 1) := Nat.mod_lt _ (by positivity)
    have hq : m / 2 ^ (k + 1) < 2 ^ 53 := by
      rw [Nat.div_lt_iff_lt_mul (by positivity)]
      calc m < 2 ^ bitLength m := hbits.1
        _ = 2 ^ 53 * 2 ^ (k + 1) := by rw [hpow, mul_comm]
    have hhalf : 2 ^ (k + 1) = 2 * 2 ^ k := by rw [pow_succ']
    have hmQ : (m : ℚ) = (2 : ℚ) ^ (k + 1) * ((m / 2 ^ (k + 1) : Nat) : ℚ)
        + ((m % 2 ^ (k + 1) : Nat) : ℚ) := by
      exact_mod_cast hdm.symm
    have hz : (2 : ℚ) ^ (e + ((k + 1 : Nat) : Int)) = (2 : ℚ) ^ e * (2 : ℚ) ^ (k + 1) := by
      rw [zpow_add₀ (by norm_num : (2 : ℚ) ≠ 0), zpow_natCast]
    have hepos : (0 : ℚ) < (2 : ℚ) ^ e := by positivity
    have hmodQ : ((m % 2 ^ (k + 1) : Nat) : ℚ) < (2 : ℚ) ^ (k + 1) := by
      exact_mod_cast hmod
    have hhalfQ : (2 : ℚ) ^ (k + 1) = 2 * (2 : ℚ) ^ k := by rw [pow_succ']
    unfold roundNearestEven
    rw [if_neg hm]
    simp only [hk1, Nat.add_sub_cancel]
    split_ifs with hup
    · refine ⟨Nat.succ_le_of_lt hq, ?_, fun h => absurd h hm⟩
      have hr : (2 : ℚ) ^ k ≤ ((m % 2 ^ (k + 1) : Nat) : ℚ) := by
        rcases hup with h | h
        · exact_mod_cast le_of_lt h
        · exact_mod_cast le_of_eq h.1.symm
      simp only [Binary64.toRat]
      rw [hz]
      have herr : ((m / 2 ^ (k + 1) + 1 : Nat) : ℚ) * ((2 : ℚ) ^ e * (2 : ℚ) ^ (k + 1))
            - (m : ℚ) * (2 : ℚ) ^ e
          = ((2 : ℚ) ^ (k + 1) - ((m % 2 ^ (k + 1) : Nat) : ℚ)) * (2 : ℚ) ^ e := by
        rw [hmQ]
        push_cast
        ring
      rw [herr, abs_of_nonneg (mul_nonneg (by linarith) (le_of_lt hepos))]
      nlinarith
    · refine ⟨le_of_lt hq, ?_, fun h => absurd h hm⟩
      have hr : ((m % 2 ^ (k + 1) : Nat) : ℚ) ≤ (2 : ℚ) ^ k := by
        have : m % 2 ^ (k + 1) ≤ 2 ^ k := by
          by_contra hgt
          exact hup (Or.inl (by omega))
        exact_mod_cast this
      simp only [Binary64.toRat]
      rw [hz]
      have herr : ((m / 2 ^ (k + 1) : Nat) : ℚ) * ((2 : ℚ) ^ e * (2 : ℚ) ^ (k + 1))
            - (m : ℚ) * (2 : ℚ) ^ e
          = - (((m % 2 ^ (k + 1) : Nat) : ℚ) * (2 : ℚ) ^ e) := by
        rw [hmQ]
        ring
      rw [herr, abs_neg,
        abs_of_nonneg (mul_nonneg (Nat.cast_nonneg _) (le_of_lt hepos))]
      nlinarith

/-- Values that a `double` holds exactly are computed exactly. -/
theorem binary64_exact_examples :
    (Binary64.divNat 1 2).toRat = 1 / 2 ∧ (Binary64.divNat 3 4).toRat = 3 / 4 ∧
    ((Binary64.divNat 1 2).add (Binary64.divNat 1 4)).toRat = 3 / 4 ∧
    (Binary64.divNat 7 7).toRat = 1 := by
  have h1 : Binary64.divNat 1 2 = ⟨4503599627370496, -53⟩ := by decide
  have h2 : Binary64.divNat 3 4 = ⟨6755399441055744, -53⟩ := by decide
  have h3 : (Binary64.divNat 1 2).add (Binary64.divNat 1 4) = ⟨6755399441055744, -53⟩ := by
    decide
  have h4 : Binary64.divNat 7 7 = ⟨4503599627370496, -52⟩ := by decide
  rw [h3, h1, h2, h4]
  norm_num [Binary64.toRat]

theorem zpow_toNat_sub (x e : Int) (h : e ≤ x) :
    (2 : ℚ) ^ (x - e).toNat * (2 : ℚ) ^ e = (2 : ℚ) ^ x := by
  have h1 : (((x - e).toNat : Nat) : Int) = x - e := Int.toNat_of_nonneg (by omega)
  rw [← zpow_natCast, h1, ← zpow_add₀ (by norm_num : (2 : ℚ) ≠ 0)]
  congr 1
  omega

/-- The sum of two `double`s is their exact sum, rounded: it differs from the
exact sum by at most half a unit in the last place. -/
theorem Binary64.add_spec (a b : Binary64) :
    |(a.add b).toRat - (a.toRat + b.toRat)| * 2 ≤ (2 : ℚ) ^ (a.add b).exp := by
  have hexact : ((a.mant * 2 ^ (a.exp - min a.exp b.exp).toNat
        + b.mant * 2 ^ (b.exp - min a.exp b.exp).toNat : Nat) : ℚ) * (2 : ℚ) ^ (min a.exp b.exp)
      = a.toRat + b.toRat := by
    unfold Binary64.toRat
    push_cast
    rw [add_mul, mul_assoc, mul_assoc, zpow_toNat_sub a.exp _ (min_le_left _ _),
      zpow_toNat_sub b.exp _ (min_le_right _ _)]
  have h := (roundNearestEven_spec
    (a.mant * 2 ^ (a.exp - min a.exp b.exp).toNat + b.mant * 2 ^ (b.exp - min a.exp b.exp).toNat)
    (min a.exp b.exp)).2.1
  rw [hexact] at h
  exact h

/-- The frequency of one word among nine is the `double` next to 1/9. -/
theorem divNat_one_nine_nearest :
    |(Binary64.divNat 1 9).toRat - 1 / 9| * 2 ≤ (2 : ℚ) ^ (Binary64.divNat 1 9).exp := by
  rw [divNat_one_nine]
  have h : (⟨8006399337547548, -56⟩ : Binary64).toRat - 1 / 9 = -(1 / 162129586585337856) := by
    norm_num [Binary64.toRat]
  rw [h, abs_neg, abs_of_nonneg (by norm_num)]
  norm_num

end BookSimilarity
